import Mathlib

/-!
Verification development for the headless-crm workflow engine.

The repository contains two near-duplicate implementations of the workflow
executor:

* `cli/workflow-executor.js` (source file `src/unnamed/part_006`), the Node CLI
  executor — embedded below in namespace `CLIExec`;
* the Supabase edge function `process-event` (second half of source file
  `src/unnamed/part_002`), a Deno/TypeScript revision — embedded below in
  namespace `EdgeFn`.

JavaScript runtime values are modelled by the inductive type `JVal`
(undefined, null, booleans, numbers, strings, objects, arrays).  Numbers are
modelled as integers: no claim under consideration exercises fractional or
NaN-specific numeric behaviour, and the places where JavaScript number
coercion can fail to produce an integer are modelled by `Option Int`
(`none` playing the role of NaN).

External effects (database writes, network calls, `new Function` dynamic
evaluation) are modelled by explicit state in the result records and by
oracle function parameters, so that every definition below is executable.
-/

namespace HeadlessCRM

/-- Model of a JavaScript runtime value. -/
inductive JVal : Type where
  | vUndefined : JVal
  | vNull : JVal
  | vBool : Bool → JVal
  | vNum : Int → JVal
  | vStr : String → JVal
  | vObj : List (String × JVal) → JVal
  | vArr : List JVal → JVal

/-- JavaScript truthiness.  (`NaN` is not representable in the `Int` number
model; every represented number other than 0 is truthy, as in JS.) -/
def truthy : JVal → Bool
  | .vUndefined => false
  | .vNull => false
  | .vBool b => b
  | .vNum n => n != 0
  | .vStr s => s != ""
  | .vObj _ => true
  | .vArr _ => true

/-- JavaScript strict equality (`===`).  Objects and arrays compare by
reference in JS; the two operands at every call site modelled here come from
distinct allocations (stored configuration vs. run context), so reference
equality is modelled as `false` for them. -/
def jsStrictEq : JVal → JVal → Bool
  | .vUndefined, .vUndefined => true
  | .vNull, .vNull => true
  | .vBool a, .vBool b => a == b
  | .vNum a, .vNum b => a == b
  | .vStr a, .vStr b => a == b
  | _, _ => false

/-- Is the value exactly `undefined`? -/
def isUndefined : JVal → Bool
  | .vUndefined => true
  | _ => false

/-- JavaScript whitespace (the `\s` regex class / `trim` set), restricted to
the characters that can actually appear in the repository's stored
configuration strings. -/
def isJsSpace (c : Char) : Bool :=
  c == ' ' || c == '\t' || c == '\n' || c == '\r' ||
  c == Char.ofNat 11 || c == Char.ofNat 12 || c == Char.ofNat 160

/-- JavaScript `String.prototype.trim`. -/
def jsTrim (s : String) : String :=
  String.mk (((s.data.dropWhile isJsSpace).reverse.dropWhile isJsSpace).reverse)

/-- JavaScript `String.prototype.split` on a plain nonempty separator:
left-to-right, non-overlapping.  The fuel argument (`length + 1` at the
wrapper) only forces structural recursion; each step consumes at least one
character, so it never runs out. -/
def splitOnFuel (sep : List Char) : Nat → List Char → List Char → List (List Char)
  | _, [], acc => [acc.reverse]
  | 0, cs, acc => [acc.reverse ++ cs]
  | fuel + 1, c :: rest, acc =>
    if List.isPrefixOf sep (c :: rest) && !sep.isEmpty then
      acc.reverse :: splitOnFuel sep fuel ((c :: rest).drop sep.length) []
    else
      splitOnFuel sep fuel rest (c :: acc)

/-- JavaScript `s.split(sep)` for a nonempty plain-string separator. -/
def jsSplit (s sep : String) : List String :=
  (splitOnFuel sep.data (s.data.length + 1) s.data []).map String.mk

/-- JavaScript `String.prototype.includes`. -/
def jsIncludes (s sub : String) : Bool :=
  if sub = "" then true else (jsSplit s sub).length != 1

/-- JavaScript `Number(...)` coercion into the integer number model;
`none` stands for `NaN`.  String parsing accepts an optional sign followed
by digits (fractional literals do not occur in any modelled configuration).
Object/array coercion is modelled as `NaN`. -/
def jsNumber : JVal → Option Int
  | .vUndefined => none
  | .vNull => some 0
  | .vBool b => some (if b then 1 else 0)
  | .vNum n => some n
  | .vStr s =>
    let t := jsTrim s
    if t = "" then some 0
    else
      match t.data with
      | '-' :: ds => if ds ≠ [] && ds.all Char.isDigit then some (-(String.mk ds).toNat!) else none
      | '+' :: ds => if ds ≠ [] && ds.all Char.isDigit then some ((String.mk ds).toNat!) else none
      | ds => if ds.all Char.isDigit then some ((String.mk ds).toNat!) else none
  | .vObj _ => none
  | .vArr _ => none

/-- JavaScript `>` after `Number` coercion (comparisons with NaN are false). -/
def jsGT (a b : JVal) : Bool :=
  match jsNumber a, jsNumber b with
  | some x, some y => x > y
  | _, _ => false

/-- JavaScript `<` after `Number` coercion (comparisons with NaN are false). -/
def jsLT (a b : JVal) : Bool :=
  match jsNumber a, jsNumber b with
  | some x, some y => x < y
  | _, _ => false

/-- Characters escaped by `JSON.stringify` inside string literals (only the
escapes that can arise in the modelled data). -/
def jsonEscapeChar (c : Char) : List Char :=
  if c == '"' then ['\\', '"']
  else if c == '\\' then ['\\', '\\']
  else [c]

/-- `JSON.stringify` of a string value. -/
def jsonQuote (s : String) : String :=
  "\"" ++ String.mk (s.data.flatMap jsonEscapeChar) ++ "\""

mutual

/-- `JSON.stringify`.  Call sites in the source only reach this after
checking for `undefined`; a bare `undefined` (which JS stringifies to the
non-string `undefined`) is rendered as `"null"`, the value JS uses for
`undefined` inside arrays. -/
def jsonStringify : JVal → String
  | .vUndefined => "null"
  | .vNull => "null"
  | .vBool b => if b then "true" else "false"
  | .vNum n => toString n
  | .vStr s => jsonQuote s
  | .vObj fs => "\x7b" ++ String.intercalate "," (jsonObjFields fs) ++ "\x7d"
  | .vArr xs => "[" ++ String.intercalate "," (jsonArrItems xs) ++ "]"

/-- Object properties of `JSON.stringify`; properties whose value is
`undefined` are omitted, as in JS. -/
def jsonObjFields : List (String × JVal) → List String
  | [] => []
  | (k, v) :: rest =>
    match v with
    | .vUndefined => jsonObjFields rest
    | w => (jsonQuote k ++ ":" ++ jsonStringify w) :: jsonObjFields rest

/-- Array items of `JSON.stringify`; `undefined` items render as `null`. -/
def jsonArrItems : List JVal → List String
  | [] => []
  | v :: rest =>
    (match v with
     | .vUndefined => "null"
     | w => jsonStringify w) :: jsonArrItems rest

end

/-- JavaScript `String(...)` coercion.  (`String` of an object is
`[object Object]`; the modelled code always routes objects through
`JSON.stringify` before reaching `String`, so the object case is inert.) -/
def jsToString : JVal → String
  | .vUndefined => "undefined"
  | .vNull => "null"
  | .vBool b => if b then "true" else "false"
  | .vNum n => toString n
  | .vStr s => s
  | .vObj _ => "[object Object]"
  | .vArr xs => String.intercalate "," (xs.map fun v =>
      match v with
      | .vUndefined => ""
      | .vNull => ""
      | w => jsonStringify w)

/-- JavaScript optional-chained property access `current?.[key]`:
`undefined`/`null` yield `undefined`; objects look up the property; arrays
accept canonical decimal indices; every other base yields `undefined`. -/
def jsGet (v : JVal) (key : String) : JVal :=
  match v with
  | .vObj fields =>
    match fields.find? (fun p => p.1 == key) with
    | some p => p.2
    | none => .vUndefined
  | .vArr xs =>
    match key.toNat? with
    | some i => if toString i == key then xs.getD i .vUndefined else .vUndefined
    | none => .vUndefined
  | _ => .vUndefined

/-- The character class `[^\x7d]` of the placeholder regex. -/
def notBrace (c : Char) : Bool := c != '}'

/-- One match attempt of the regex fragment `([^}]+)\x7d\x7d` : consume a
nonempty run of non-`\x7d` characters, then require two closing braces;
returns the captured run and the remainder after the braces. -/
def grabInner (cs : List Char) : Option (List Char × List Char) :=
  if (cs.takeWhile notBrace).isEmpty then none
  else if (cs.dropWhile notBrace).take 2 = ['}', '}'] then
    some (cs.takeWhile notBrace, (cs.dropWhile notBrace).drop 2)
  else none

/-- JavaScript `template.replace(/\x7b\x7b([^\x7d]+)\x7d\x7d/g, f)`: scan left
to right; at each position try to match a full placeholder, replace it by
`f match captured` when it matches, else emit the character and continue.
(The regex engine advances a single position after a failed match attempt,
which the `none` branch reproduces.)  The fuel argument only forces
structural recursion; each step consumes at least one input character, so
starting fuel `length + 1` never runs out. -/
def replaceTplFuel (f : String → String → String) : Nat → List Char → List Char
  | 0, cs => cs
  | _ + 1, [] => []
  | fuel + 1, '{' :: '{' :: rest =>
    (match grabInner rest with
     | some (body, rest') =>
       (f (String.mk ('{' :: '{' :: (body ++ ['}', '}']))) (String.mk body)).data ++
         replaceTplFuel f fuel rest'
     | none => '{' :: replaceTplFuel f fuel ('{' :: rest))
  | fuel + 1, c :: rest => c :: replaceTplFuel f fuel rest

/-- `replace` over a whole character list. -/
def replaceTpl (f : String → String → String) (cs : List Char) : List Char :=
  replaceTplFuel f (cs.length + 1) cs

/-- The anchored pure-placeholder regex `^\x7b\x7b([^\x7d]+)\x7d\x7d$`:
returns the captured path when the whole string is exactly one placeholder. -/
def pureTemplate? (s : String) : Option String :=
  match s.data with
  | '{' :: '{' :: rest =>
    match grabInner rest with
    | some (body, []) => some (String.mk body)
    | _ => none
  | _ => none

/-- JavaScript `str.replace(pat, rep)` with a global plain-substring pattern:
replace every (left-to-right, non-overlapping) occurrence.  Fuel as above. -/
def replaceSubFuel (pat rep : List Char) : Nat → List Char → List Char
  | 0, cs => cs
  | _ + 1, [] => []
  | fuel + 1, c :: rest =>
    if List.isPrefixOf pat (c :: rest) && !pat.isEmpty then
      rep ++ replaceSubFuel pat rep fuel ((c :: rest).drop pat.length)
    else
      c :: replaceSubFuel pat rep fuel rest

/-- String-level wrapper for `replaceSubFuel`. -/
def jsReplaceAll (pat rep s : String) : String :=
  String.mk (replaceSubFuel pat.data rep.data (s.data.length + 1) s.data)

/-- The regex `/\x7b\x7b|\x7d\x7d/g` replacement by the empty string used on
condition fields: strip every `\x7b\x7b` and `\x7d\x7d` pair, left to right. -/
def stripBraces : List Char → List Char
  | '{' :: '{' :: rest => stripBraces rest
  | '}' :: '}' :: rest => stripBraces rest
  | c :: rest => c :: stripBraces rest
  | [] => []

/-! ## Shared row/record shapes of the workflow engine -/

/-- A `run_conditions` entry (`\x7bfield, operator, value\x7d`). -/
structure Cond where
  field : String
  operator : String
  value : JVal

/-- A `workflow_steps` row, as read by the executors.  `action_type` and
`action_config` are not carried here because step execution
(`executeStep` and the four step handlers) is passed to the engine as an
explicit oracle function; the individual step handlers are modelled
separately. -/
structure WStep where
  step_order : Int
  name : String := ""
  run_conditions : List Cond := []
  output_variable : Option String := none
  on_error : Option String := none

/-- An `emit_event` directive produced by a step. -/
structure EmitSpec where
  event_type : Option String := none
  entity_type : Option String := none
  entity_id : Option String := none
  payload : JVal := .vObj []

/-- The uniform step result contract (`success`/`output`/`error`/`stop`/
`stop_reason`/`emit_event`).  An absent `output` property is `vUndefined`. -/
structure StepResult where
  success : Bool
  output : JVal := .vUndefined
  error : Option String := none
  stop : Bool := false
  stop_reason : Option String := none
  emit_event : Option EmitSpec := none

/-- Outcome of invoking `executeStep` on one step: either a returned
`StepResult` or an exception escaping the handler. -/
inductive ExecOutcome : Type where
  | ok : StepResult → ExecOutcome
  | threw : String → ExecOutcome

/-- The mutable run context: a flat map from variable names to values. -/
abbrev Ctx : Type := List (String × JVal)

/-- The context viewed as the JS object the template resolver reads. -/
def ctxVal (ctx : Ctx) : JVal := .vObj ctx

/-- Keys currently bound in a context. -/
def ctxKeys (ctx : Ctx) : List String := ctx.map Prod.fst

/-- JS property assignment `context[k] = v`: overwrite an existing binding
in place or append a new one. -/
def setKey (ctx : Ctx) (k : String) (v : JVal) : Ctx :=
  if ctx.any (fun p => p.1 == k) then
    ctx.map (fun p => if p.1 == k then (k, v) else p)
  else
    ctx ++ [(k, v)]

/-- A `workflow_run_logs` row (the fields the claims are about). -/
structure LogRow where
  step_order : Int
  step_name : String := ""
  status : String
  error_message : Option String := none

/-- The `workflow_runs` row as the engine leaves it (`completed_at` is
modelled as the flag "a completion timestamp has been written"). -/
structure RunRow where
  status : String
  completed_at : Bool := false
  error_message : Option String := none

/-- Engine loop state.  `execCalls` and `emitted` are ghost fields recording,
in order, every `executeStep` invocation (step order plus the context passed
to it) and every emitted follow-up event; they never influence control
flow. -/
structure RunState where
  ctx : Ctx
  logs : List LogRow := []
  shouldStop : Bool := false
  error : Option String := none
  currentStepOrder : Int := 0
  threw : Option String := none
  emitted : List EmitSpec := []
  execCalls : List (Int × Ctx) := []

/-- Result of `executeWorkflow`: the final `workflow_runs` row together with
the final loop state (logs, context, ghost trace) and the returned
status/success pair. -/
structure EngineResult where
  run : RunRow
  state : RunState
  success : Bool
  status : String

/-- A branch-action descriptor (`on_true`/`on_false`/`branches[i]`),
supporting both the `action`-keyed and the legacy `then`-keyed shape. -/
structure BranchCfg where
  condition : String := ""
  action : Option String := none
  then_ : Option String := none
  reason : Option String := none
  event_type : Option String := none
  payload : Option JVal := none

/-- `handleBranchAction` — identical in both executors: `continue` is a
no-op, `stop` sets the stop flag with an optional reason, `emit_event`
attaches an emit directive; the legacy `then` key can also request `stop`
or `emit_event`. -/
def handleBranchAction (branchConfig : Option BranchCfg) : StepResult :=
  match branchConfig with
  | none => { success := true, output := .vNull }
  | some cfg =>
    if cfg.action == some "continue" then
      { success := true, output := .vObj [] }
    else if cfg.action == some "stop" then
      { success := true, output := .vObj [], stop := true, stop_reason := cfg.reason }
    else
      let r1 : StepResult :=
        if cfg.action == some "emit_event" then
          { success := true, output := .vObj [],
            emit_event := some { event_type := cfg.event_type,
                                 payload := cfg.payload.getD (.vObj []) } }
        else
          { success := true, output := .vObj [] }
      let r2 : StepResult :=
        if cfg.then_ == some "stop" then { r1 with stop := true } else r1
      if cfg.then_ == some "emit_event" then
        { r2 with emit_event := some { event_type := cfg.event_type,
                                       payload := cfg.payload.getD (.vObj []) } }
      else r2

/-! ## EdgeFn: the Supabase edge-function executor (src/unnamed/part_002) -/

namespace EdgeFn

/-- `getNestedValue(obj, path)`: dotted-path lookup with optional chaining. -/
def getNestedValue (obj : JVal) (path : String) : JVal :=
  (jsSplit path ".").foldl jsGet obj

/-- The acceptance test of the fallback chain: a looked-up alternative is
kept when it is neither `undefined`, `null`, nor the empty string. -/
def fallbackAccepts (value : JVal) : Bool :=
  !(isUndefined value) && !(jsStrictEq value .vNull) && !(jsStrictEq value (.vStr ""))

/-- Left-to-right scan of the fallback alternatives: first accepted lookup
wins; an exhausted chain is `undefined`. -/
def firstFallbackHit (obj : JVal) : List String → JVal
  | [] => .vUndefined
  | p :: ps =>
    if fallbackAccepts (getNestedValue obj p) then getNestedValue obj p
    else firstFallbackHit obj ps

/-- `getNestedValueWithFallback(obj, path)`: when the path contains `||`,
evaluate the alternatives left to right and return the first whose lookup is
neither `undefined`, `null`, nor the empty string; otherwise plain lookup.
(`path.includes("||")` holds exactly when splitting on `"||"` yields more
than one part.) -/
def getNestedValueWithFallback (obj : JVal) (path : String) : JVal :=
  if (jsSplit path "||").length != 1 then
    firstFallbackHit obj ((jsSplit path "||").map jsTrim)
  else getNestedValue obj path

/-- The replacement callback of `resolveTemplate`: keep the placeholder text
when the lookup is `undefined` or `null`, JSON-stringify objects, and
`String(...)` everything else. -/
def resolveCallback (ctx : Ctx) (matchText path : String) : String :=
  let value := getNestedValueWithFallback (ctxVal ctx) (jsTrim path)
  match value with
  | .vUndefined => matchText
  | .vNull => matchText
  | .vObj fs => jsonStringify (.vObj fs)
  | .vArr xs => jsonStringify (.vArr xs)
  | v => jsToString v

/-- String body of `resolveTemplate`. -/
def resolveTemplateStr (template : String) (ctx : Ctx) : String :=
  String.mk (replaceTpl (resolveCallback ctx) template.data)

/-- `resolveTemplate(template, context)`: non-strings pass through. -/
def resolveTemplate (template : JVal) (ctx : Ctx) : JVal :=
  match template with
  | .vStr s => .vStr (resolveTemplateStr s ctx)
  | v => v

/-- The replacement callback of `resolveTemplateObject`'s embedded-string
case: unresolved (`undefined`/`null`) placeholders become the empty string,
objects are JSON-stringified, everything else goes through `String(...)`. -/
def embeddedCallback (ctx : Ctx) (_matchText path : String) : String :=
  let value := getNestedValueWithFallback (ctxVal ctx) (jsTrim path)
  match value with
  | .vUndefined => ""
  | .vNull => ""
  | .vObj fs => jsonStringify (.vObj fs)
  | .vArr xs => jsonStringify (.vArr xs)
  | v => jsToString v

mutual

/-- `resolveTemplateObject(obj, context)`: a string that is exactly one
placeholder resolves to the raw looked-up value; other strings interpolate;
arrays and objects recurse, object keys whose resolved value is `undefined`
being omitted from the result. -/
def resolveTemplateObject (obj : JVal) (ctx : Ctx) : JVal :=
  match obj with
  | .vStr s =>
    match pureTemplate? s with
    | some inner => getNestedValueWithFallback (ctxVal ctx) (jsTrim inner)
    | none => .vStr (String.mk (replaceTpl (embeddedCallback ctx) s.data))
  | .vArr xs => .vArr (resolveItems xs ctx)
  | .vObj fs => .vObj (resolveFields fs ctx)
  | v => v

/-- Array case of `resolveTemplateObject`. -/
def resolveItems (xs : List JVal) (ctx : Ctx) : List JVal :=
  match xs with
  | [] => []
  | v :: rest => resolveTemplateObject v ctx :: resolveItems rest ctx

/-- Object case of `resolveTemplateObject`; `undefined` results are omitted. -/
def resolveFields (fs : List (String × JVal)) (ctx : Ctx) : List (String × JVal) :=
  match fs with
  | [] => []
  | (k, v) :: rest =>
    let r := resolveTemplateObject v ctx
    if isUndefined r then resolveFields rest ctx
    else (k, r) :: resolveFields rest ctx

end

/-- One operator application of `evaluateConditions`.  `equals` compares
booleans strictly and everything else after `String(...)` coercion. -/
def evalCondOp (operator : String) (fieldValue targetValue : JVal) : Bool :=
  if operator = "equals" then
    match targetValue with
    | .vBool _ => jsStrictEq fieldValue targetValue
    | _ => jsToString fieldValue == jsToString targetValue
  else if operator = "not_equals" then !(jsStrictEq fieldValue targetValue)
  else if operator = "is_empty" then
    !(truthy fieldValue) || jsStrictEq fieldValue (.vStr "")
  else if operator = "is_not_empty" then
    truthy fieldValue && !(jsStrictEq fieldValue (.vStr ""))
  else if operator = "contains" then
    jsIncludes (jsToString fieldValue) (jsToString targetValue)
  else if operator = "greater_than" then jsGT fieldValue targetValue
  else if operator = "less_than" then jsLT fieldValue targetValue
  else false

/-- `evaluateConditions(conditions, context)`: AND over the entries; each
field has literal `\x7b\x7b`/`\x7d\x7d` stripped, is trimmed and looked up
raw (with fallback support) in the context. -/
def evaluateConditions (conditions : List Cond) (ctx : Ctx) : Bool :=
  conditions.all fun c =>
    evalCondOp c.operator
      (getNestedValueWithFallback (ctxVal ctx) (jsTrim (String.mk (stripBraces c.field.data))))
      c.value

end EdgeFn

/-! ## Shared pieces of both engine loops -/

/-- The character whitelist of `evaluateExpression`'s sanitizer:
`[0-9a-zA-Z_\s.><=!&|()"\x27-+]` (identical in both executors). -/
def isWhitelisted (c : Char) : Bool :=
  ('0' ≤ c && c ≤ '9') || ('a' ≤ c && c ≤ 'z') || ('A' ≤ c && c ≤ 'Z') || c == '_' ||
  isJsSpace c || c == '.' || c == '>' || c == '<' || c == '=' || c == '!' || c == '&' ||
  c == '|' || c == '(' || c == ')' || c == '"' || c == Char.ofNat 39 || c == '-' || c == '+'

/-- `expr.replace(/[^0-9a-zA-Z_\s.><=!&|()"\x27-+]/g, "")`: drop every
character outside the whitelist. -/
def sanitizeExpr (expr : String) : String :=
  String.mk (expr.data.filter isWhitelisted)

/-- The error marker `\x7berror: true, message\x7d` bound into the context
when a failed step is absorbed. -/
def errMarker (e : Option String) : JVal :=
  .vObj [("error", .vBool true),
         ("message", match e with | some m => .vStr m | none => .vUndefined)]

/-- `step.output_variable || \x60step_$\x7bstep.step_order\x7d_error\x60`:
the context key receiving a continued failure's error marker (a missing or
empty `output_variable` is falsy, selecting the synthesized key). -/
def errKeyOf (s : WStep) : String :=
  match s.output_variable with
  | some v => if v != "" then v else "step_" ++ toString s.step_order ++ "_error"
  | none => "step_" ++ toString s.step_order ++ "_error"

/-- Success-path output binding: `if (step.output_variable &&
stepResult.output !== undefined) context[step.output_variable] =
stepResult.output`. -/
def bindOutput (s : WStep) (r : StepResult) (ctx : Ctx) : Ctx :=
  match s.output_variable with
  | some v => if v != "" && !(isUndefined r.output) then setKey ctx v r.output else ctx
  | none => ctx

/-- The step comparator `(a, b) => a.step_order - b.step_order` of
`steps.sort(...)` (both executors), as an ordering relation. -/
def stepLe (a b : WStep) : Prop := a.step_order ≤ b.step_order

instance : DecidableRel stepLe := fun a b => Int.decLe a.step_order b.step_order

instance : IsTotal WStep stepLe := ⟨fun a b => Int.le_total a.step_order b.step_order⟩

instance : IsTrans WStep stepLe := ⟨fun _ _ _ h1 h2 => le_trans h1 h2⟩

/-- Every context key that processing step `s` can newly introduce: its
(truthy) `output_variable` on success, or the continued-failure error key. -/
def possibleKeys (s : WStep) : List String :=
  (match s.output_variable with
   | some v => [v]
   | none => []) ++ ["step_" ++ toString s.step_order ++ "_error"]

/-- The log row written for a skipped step (both executors log it with
status `skipped`). -/
def skipLog (s : WStep) : LogRow :=
  { step_order := s.step_order, step_name := s.name, status := "skipped" }

/-- The log row written for an executed step: `completed` on success,
`failed` otherwise, with the step's error message (both executors). -/
def execLog (s : WStep) (r : StepResult) : LogRow :=
  { step_order := s.step_order, step_name := s.name,
    status := if r.success then "completed" else "failed",
    error_message := r.error }

/-- JS truthiness of the engine's `error` variable (`null` initially, later
a step's error message). -/
def errTruthy (e : Option String) : Bool :=
  match e with
  | some m => m != ""
  | none => false

namespace EdgeFn

/-- The normalization chain applied by `evaluateExpression` before
sanitizing (loose null/boolean equality into strict form, quoted booleans
into bare ones), in source order. -/
def normalizeExpr (expr : String) : String :=
  jsReplaceAll "!= null" "!== null" expr
  |> jsReplaceAll "== null" "=== null"
  |> jsReplaceAll "== true" "=== true"
  |> jsReplaceAll "== false" "=== false"
  |> jsReplaceAll "\"true\"" "true"
  |> jsReplaceAll "\"false\"" "false"
  |> jsReplaceAll "\x27true\x27" "true"
  |> jsReplaceAll "\x27false\x27" "false"

/-- The exact string handed to dynamic evaluation (`new Function`):
normalized, then sanitized. -/
def evaluatedString (expr : String) : String :=
  sanitizeExpr (normalizeExpr expr)

/-- `evaluateExpression(expr)`.  Dynamic evaluation of the sanitized string
(`new Function(...)()`) is an external effect, modelled by the oracle
`evalFn`; a throwing evaluation is re-raised as
`Invalid expression: <normalized expr>` (the source interpolates the
reassigned, already-normalized `expr` into the message). -/
def evaluateExpression (evalFn : String → Except String JVal) (expr : String) :
    Except String JVal :=
  match evalFn (evaluatedString expr) with
  | .ok v => .ok v
  | .error _ => .error ("Invalid expression: " ++ normalizeExpr expr)

/-- `action_config` of a `condition_check` step. -/
structure CondCheckConfig where
  condition : String := ""
  on_true : Option BranchCfg := none
  on_false : Option BranchCfg := none

/-- `executeConditionCheck`: resolve the condition, evaluate it, defaulting
to `false` when evaluation throws (log, don't throw), and route to the
`on_true`/`on_false` branch action. -/
def executeConditionCheck (evalFn : String → Except String JVal)
    (config : CondCheckConfig) (ctx : Ctx) : StepResult :=
  let condition := resolveTemplateStr config.condition ctx
  let result : Bool :=
    match evaluateExpression evalFn condition with
    | .ok v => truthy v
    | .error _ => false
  if result then handleBranchAction config.on_true else handleBranchAction config.on_false

/-- `executeBranch`: first branch whose condition evaluates truthy wins;
branches whose evaluation throws are skipped; no match succeeds with
`\x7bno_match: true\x7d`. -/
def executeBranch (evalFn : String → Except String JVal)
    (branches : List BranchCfg) (ctx : Ctx) : StepResult :=
  match branches with
  | [] => { success := true, output := .vObj [("no_match", .vBool true)] }
  | b :: rest =>
    match evaluateExpression evalFn (resolveTemplateStr b.condition ctx) with
    | .ok v => if truthy v then handleBranchAction (some b) else executeBranch evalFn rest ctx
    | .error _ => executeBranch evalFn rest ctx

/-- The model-tier table `MODELS`. -/
def MODELS : String → Option String
  | "haiku" => some "claude-3-5-haiku-20241022"
  | "sonnet" => some "claude-sonnet-4-20250514"
  | "default" => some "claude-sonnet-4-20250514"
  | _ => none

/-- `action_config` of an `ai_prompt` step. -/
structure AiPromptConfig where
  prompt_template : String := ""
  output_type : Option String := none
  max_tokens : Option Int := none
  model : Option String := none

/-- `executeAiPrompt`.  The Anthropic key lookup (`getAnthropicApiKey`) is a
database read, passed in as `apiKey`; the network call plus JSON-extraction
of the response (the `try` block) is abstracted as the oracle `callModel`
receiving the resolved prompt, `max_tokens` and the selected model id.
With no key configured the step *succeeds* with
`\x7bskipped: true, reason: "No API key"\x7d`. -/
def executeAiPrompt (apiKey : Option String)
    (callModel : String → Int → String → StepResult)
    (config : AiPromptConfig) (ctx : Ctx) : StepResult :=
  match apiKey with
  | none =>
    { success := true, output := .vObj [("skipped", .vBool true), ("reason", .vStr "No API key")] }
  | some _ =>
    let maxTokens := config.max_tokens.getD 1000
    let modelKey := config.model.getD "default"
    let model := (MODELS modelKey).getD "claude-sonnet-4-20250514"
    let resolvedPrompt := resolveTemplateStr config.prompt_template ctx
    callModel resolvedPrompt maxTokens model

/-- The edge function's step loop.  Note the failure branch: *every* failed
step is absorbed (`failed but continuing`), binding an error marker and
proceeding — `on_error` is never consulted and the engine's error variable
is never set.  (The loop body's successive mutations of the run state are
written as one record update per branch; within an iteration the stop flag
is known false, so `r.stop` is the flag's new value.) -/
def runSteps (exec : WStep → Ctx → ExecOutcome) : List WStep → RunState → RunState
  | [], st => st
  | s :: rest, st =>
    if st.shouldStop then st
    else if s.run_conditions.length != 0 && !(evaluateConditions s.run_conditions st.ctx) then
      runSteps exec rest
        { st with currentStepOrder := s.step_order, logs := st.logs ++ [skipLog s] }
    else
      match exec s st.ctx with
      | .threw m =>
        { st with currentStepOrder := s.step_order,
                  execCalls := st.execCalls ++ [(s.step_order, st.ctx)],
                  threw := some m }
      | .ok r =>
        if r.success then
          runSteps exec rest
            { st with currentStepOrder := s.step_order,
                      execCalls := st.execCalls ++ [(s.step_order, st.ctx)],
                      logs := st.logs ++ [execLog s r],
                      ctx := bindOutput s r st.ctx,
                      shouldStop := r.stop,
                      emitted := st.emitted ++
                        (match r.emit_event with | some e => [e] | none => []) }
        else
          runSteps exec rest
            { st with currentStepOrder := s.step_order,
                      execCalls := st.execCalls ++ [(s.step_order, st.ctx)],
                      logs := st.logs ++ [execLog s r],
                      ctx := setKey st.ctx (errKeyOf s) (errMarker r.error) }

/-- `executeWorkflow`, from the successful insertion of the `running`
`workflow_runs` row onward (the claims under study are conditioned on that
row existing; an insertion failure returns before any row is created).
The defensive catch-all around the loop turns an escaped exception into a
`failed` row with a completion timestamp. -/
def executeWorkflow (exec : WStep → Ctx → ExecOutcome)
    (wfSteps : List WStep) (initialContext : Ctx) : EngineResult :=
  let steps := List.insertionSort stepLe wfSteps
  let st := runSteps exec steps { ctx := initialContext }
  match st.threw with
  | some m =>
    { run := { status := "failed", completed_at := true, error_message := some m },
      state := st, success := false, status := "failed" }
  | none =>
    let finalStatus :=
      if errTruthy st.error then "failed"
      else if st.shouldStop then "stopped" else "completed"
    { run := { status := finalStatus, completed_at := true, error_message := st.error },
      state := st, success := !(errTruthy st.error), status := finalStatus }

/-- An `events` row / request payload event record. -/
structure EventRec where
  id : String := ""
  event_type : String := ""
  entity_type : Option String := none
  entity_id : Option String := none
  payload : JVal := .vObj []
  processed : Bool := false
  team_id : Option String := none

/-- A `workflow_templates` row with its steps. -/
structure WorkflowTemplate where
  id : String := ""
  name : String := ""
  trigger_event : String := ""
  is_active : Bool := true
  workflow_steps : List WStep := []

/-- Outcome of the dispatch path: which return produced the response, the
ids of the workflows handed to `executeWorkflow` (in order), and whether
the event row was marked processed. -/
structure DispatchResult where
  responseTag : String
  engineInvocations : List String
  markedProcessed : Bool

/-- `processEvent`: query active templates matching the trigger, run each,
then mark the event processed (also marked when nothing matches). -/
def processEvent (db : List WorkflowTemplate) (event : EventRec) : DispatchResult :=
  let workflows := db.filter fun w => w.trigger_event == event.event_type && w.is_active
  if workflows.length == 0 then
    { responseTag := "no_matching_workflows", engineInvocations := [], markedProcessed := true }
  else
    { responseTag := "workflows_run", engineInvocations := workflows.map WorkflowTemplate.id,
      markedProcessed := true }

/-- The `Deno.serve` request handler after payload normalization: an event
whose `processed` flag is already true returns immediately with
`Event already processed`, before the `delay_until` wait and before
`processEvent` is ever reached.  (The `delay_until` blocking wait is a
real-time suspension with no effect on the modelled outcome.) -/
def serveHandler (db : List WorkflowTemplate) (event : EventRec) : DispatchResult :=
  if event.processed then
    { responseTag := "already_processed", engineInvocations := [], markedProcessed := false }
  else processEvent db event

end EdgeFn

/-! ## CLIExec: the Node CLI executor (src/unnamed/part_006,
`cli/workflow-executor.js`) -/

namespace CLIExec

/-- `getNestedValue(obj, path)`: dotted-path lookup with optional chaining
(this executor has no `||` fallback support). -/
def getNestedValue (obj : JVal) (path : String) : JVal :=
  (jsSplit path ".").foldl jsGet obj

/-- The replacement callback of `resolveTemplate`: keep the placeholder text
only for `undefined`; `typeof null === "object"`, so a `null` lookup is
JSON-stringified to `"null"` like objects and arrays; scalars go through
`String(...)`. -/
def resolveCallback (ctx : Ctx) (matchText path : String) : String :=
  let value := getNestedValue (ctxVal ctx) (jsTrim path)
  match value with
  | .vUndefined => matchText
  | .vNull => jsonStringify .vNull
  | .vObj fs => jsonStringify (.vObj fs)
  | .vArr xs => jsonStringify (.vArr xs)
  | v => jsToString v

/-- String body of `resolveTemplate`. -/
def resolveTemplateStr (template : String) (ctx : Ctx) : String :=
  String.mk (replaceTpl (resolveCallback ctx) template.data)

/-- `resolveTemplate(template, context)`: non-strings pass through. -/
def resolveTemplate (template : JVal) (ctx : Ctx) : JVal :=
  match template with
  | .vStr s => .vStr (resolveTemplateStr s ctx)
  | v => v

mutual

/-- `resolveTemplateObject(obj, context)` of the CLI executor: strings go
through `resolveTemplate` (there is *no* pure-placeholder case returning the
raw value), arrays and objects recurse, and no key is omitted. -/
def resolveTemplateObject (obj : JVal) (ctx : Ctx) : JVal :=
  match obj with
  | .vStr s => .vStr (resolveTemplateStr s ctx)
  | .vArr xs => .vArr (resolveItems xs ctx)
  | .vObj fs => .vObj (resolveFields fs ctx)
  | v => v

/-- Array case of the CLI `resolveTemplateObject`. -/
def resolveItems (xs : List JVal) (ctx : Ctx) : List JVal :=
  match xs with
  | [] => []
  | v :: rest => resolveTemplateObject v ctx :: resolveItems rest ctx

/-- Object case of the CLI `resolveTemplateObject`. -/
def resolveFields (fs : List (String × JVal)) (ctx : Ctx) : List (String × JVal) :=
  match fs with
  | [] => []
  | (k, v) :: rest => (k, resolveTemplateObject v ctx) :: resolveFields rest ctx

end

/-- One operator application of the CLI `evaluateConditions` (`equals` is
plain strict equality here; the rest matches the edge function). -/
def evalCondOp (operator : String) (fieldValue targetValue : JVal) : Bool :=
  if operator = "equals" then jsStrictEq fieldValue targetValue
  else if operator = "not_equals" then !(jsStrictEq fieldValue targetValue)
  else if operator = "is_empty" then
    !(truthy fieldValue) || jsStrictEq fieldValue (.vStr "")
  else if operator = "is_not_empty" then
    truthy fieldValue && !(jsStrictEq fieldValue (.vStr ""))
  else if operator = "contains" then
    jsIncludes (jsToString fieldValue) (jsToString targetValue)
  else if operator = "greater_than" then jsGT fieldValue targetValue
  else if operator = "less_than" then jsLT fieldValue targetValue
  else false

/-- The CLI `evaluateConditions`: each field is resolved through
`resolveTemplate` (producing a *string*), then the operator is applied. -/
def evaluateConditions (conditions : List Cond) (ctx : Ctx) : Bool :=
  conditions.all fun c =>
    evalCondOp c.operator (resolveTemplate (.vStr c.field) ctx) c.value

/-- The CLI normalization chain (no quoted-boolean rewriting here). -/
def normalizeExpr (expr : String) : String :=
  jsReplaceAll "!= null" "!== null" expr
  |> jsReplaceAll "== null" "=== null"
  |> jsReplaceAll "== true" "=== true"
  |> jsReplaceAll "== false" "=== false"

/-- The exact string handed to dynamic evaluation: normalized, then
sanitized. -/
def evaluatedString (expr : String) : String :=
  sanitizeExpr (normalizeExpr expr)

/-- The CLI `evaluateExpression`, with `new Function` as the oracle
`evalFn`. -/
def evaluateExpression (evalFn : String → Except String JVal) (expr : String) :
    Except String JVal :=
  match evalFn (evaluatedString expr) with
  | .ok v => .ok v
  | .error _ => .error ("Invalid expression: " ++ normalizeExpr expr)

/-- `action_config` of a `condition_check` step. -/
structure CondCheckConfig where
  condition : String := ""
  on_true : Option BranchCfg := none
  on_false : Option BranchCfg := none

/-- The CLI `executeConditionCheck`: an evaluation failure makes the *step
fail* (`success:false` with `Condition evaluation failed: ...`) instead of
defaulting the condition to false. -/
def executeConditionCheck (evalFn : String → Except String JVal)
    (config : CondCheckConfig) (ctx : Ctx) : StepResult :=
  let condition := resolveTemplateStr config.condition ctx
  match evaluateExpression evalFn condition with
  | .error m => { success := false, error := some ("Condition evaluation failed: " ++ m) }
  | .ok v =>
    if truthy v then handleBranchAction config.on_true
    else handleBranchAction config.on_false

/-- The CLI `executeAiPrompt`: with no Anthropic client configured the step
*fails* (`success:false`, `Anthropic API key not configured`).  The
network call plus JSON extraction (the `try` block) is the oracle
`callModel` applied to the resolved prompt and `max_tokens`. -/
def executeAiPrompt (hasAnthropicClient : Bool)
    (callModel : String → Int → StepResult)
    (config : EdgeFn.AiPromptConfig) (ctx : Ctx) : StepResult :=
  if !hasAnthropicClient then
    { success := false, error := some "Anthropic API key not configured" }
  else
    let maxTokens := config.max_tokens.getD 1000
    let resolvedPrompt := resolveTemplateStr config.prompt_template ctx
    callModel resolvedPrompt maxTokens

/-- The CLI step loop.  Unlike the edge function, the failure branch
consults `on_error`: `continue` binds an error marker and proceeds; any
other value records the error message and sets the stop flag.  (One record
update per branch; within an iteration the stop flag is known false, so
`r.stop` is the flag's new value on success.) -/
def runSteps (exec : WStep → Ctx → ExecOutcome) : List WStep → RunState → RunState
  | [], st => st
  | s :: rest, st =>
    if st.shouldStop then st
    else if s.run_conditions.length != 0 && !(evaluateConditions s.run_conditions st.ctx) then
      runSteps exec rest
        { st with currentStepOrder := s.step_order, logs := st.logs ++ [skipLog s] }
    else
      match exec s st.ctx with
      | .threw m =>
        { st with currentStepOrder := s.step_order,
                  execCalls := st.execCalls ++ [(s.step_order, st.ctx)],
                  threw := some m }
      | .ok r =>
        if r.success then
          runSteps exec rest
            { st with currentStepOrder := s.step_order,
                      execCalls := st.execCalls ++ [(s.step_order, st.ctx)],
                      logs := st.logs ++ [execLog s r],
                      ctx := bindOutput s r st.ctx,
                      shouldStop := r.stop,
                      emitted := st.emitted ++
                        (match r.emit_event with | some e => [e] | none => []) }
        else if s.on_error == some "continue" then
          runSteps exec rest
            { st with currentStepOrder := s.step_order,
                      execCalls := st.execCalls ++ [(s.step_order, st.ctx)],
                      logs := st.logs ++ [execLog s r],
                      ctx := setKey st.ctx (errKeyOf s) (errMarker r.error) }
        else
          runSteps exec rest
            { st with currentStepOrder := s.step_order,
                      execCalls := st.execCalls ++ [(s.step_order, st.ctx)],
                      logs := st.logs ++ [execLog s r],
                      error := r.error, shouldStop := true }

/-- The CLI `executeWorkflow`, from the successful insertion of the
`running` row onward; the defensive catch-all turns an escaped exception
into a `failed` row with a completion timestamp. -/
def executeWorkflow (exec : WStep → Ctx → ExecOutcome)
    (wfSteps : List WStep) (initialContext : Ctx) : EngineResult :=
  let steps := List.insertionSort stepLe wfSteps
  let st := runSteps exec steps { ctx := initialContext }
  match st.threw with
  | some m =>
    { run := { status := "failed", completed_at := true, error_message := some m },
      state := st, success := false, status := "failed" }
  | none =>
    let finalStatus :=
      if errTruthy st.error then "failed"
      else if st.shouldStop then "stopped" else "completed"
    { run := { status := finalStatus, completed_at := true, error_message := st.error },
      state := st, success := !(errTruthy st.error), status := finalStatus }

/-- The CLI `processEvent` (note: it performs *no* `processed` check of its
own; its callers filter). -/
def processEvent (db : List EdgeFn.WorkflowTemplate) (event : EdgeFn.EventRec) :
    EdgeFn.DispatchResult :=
  let workflows := db.filter fun w => w.trigger_event == event.event_type && w.is_active
  if workflows.length == 0 then
    { responseTag := "no_matching_workflows", engineInvocations := [], markedProcessed := true }
  else
    { responseTag := "workflows_run",
      engineInvocations := workflows.map EdgeFn.WorkflowTemplate.id,
      markedProcessed := true }

/-- `processPendingEvents(limit)`: the CLI backlog sweep queries only
unprocessed events (`.eq("processed", false)`, ordered by `created_at`,
limited) and dispatches each through `processEvent`.  The stored list
models the table in `created_at` order. -/
def processPendingEvents (db : List EdgeFn.WorkflowTemplate)
    (events : List EdgeFn.EventRec) (limit : Nat) : List EdgeFn.DispatchResult :=
  ((events.filter fun e => e.processed == false).take limit).map (processEvent db)

end CLIExec

/-! ## EventProcessor: the Realtime listener (src/unnamed/part_005,
`cli/native-event-processor.js`) -/

namespace EventProcessor

/-- `handleNewEvent(payload)`: a missing record or one whose `processed`
flag is already true returns immediately, reaching neither the handlers nor
the workflow executor.  (The `delay_until` branch schedules the same
processing later; scheduling time is immaterial to the modelled outcome.) -/
def handleNewEvent (db : List EdgeFn.WorkflowTemplate)
    (payloadNew : Option EdgeFn.EventRec) : EdgeFn.DispatchResult :=
  match payloadNew with
  | none => { responseTag := "ignored", engineInvocations := [], markedProcessed := false }
  | some event =>
    if event.processed then
      { responseTag := "ignored", engineInvocations := [], markedProcessed := false }
    else
      CLIExec.processEvent db event

end EventProcessor

/-! ## Concrete fixtures used by the claim theorems -/

/-- Context `\x7ba:\x7bx:null\x7d, b:\x7by:"found"\x7d\x7d`. -/
def ctxA : Ctx := [("a", .vObj [("x", .vNull)]), ("b", .vObj [("y", .vStr "found")])]

/-- Context `\x7ba:\x7b\x7d, b:\x7b\x7d\x7d`. -/
def ctxB : Ctx := [("a", .vObj []), ("b", .vObj [])]

/-- The template `\x7b\x7ba.x || b.y || "default"\x7d\x7d`. -/
def tplFB : String := "\x7b\x7ba.x || b.y || \"default\"\x7d\x7d"

/-- Context `\x7bobj: \x7bk:1\x7d\x7d`. -/
def ctxObj : Ctx := [("obj", .vObj [("k", .vNum 1)])]

/-- The pure template `\x7b\x7bobj\x7d\x7d`. -/
def pureObjTpl : String := "\x7b\x7bobj\x7d\x7d"

/-- A dynamic-evaluation oracle that always throws (a syntax error from
`new Function`). -/
def badEval : String → Except String JVal := fun _ => .error "SyntaxError"

/-- The condition field template `\x7b\x7bx\x7d\x7d`. -/
def fieldX : String := "\x7b\x7bx\x7d\x7d"

/-- Context binding `x` to the number `0`. -/
def ctx0 : Ctx := [("x", .vNum 0)]

/-- A step guarded by `is_not_empty` on `\x7b\x7bx\x7d\x7d`. -/
def guardStepNE : WStep :=
  { step_order := 2, name := "guarded",
    run_conditions := [⟨fieldX, "is_not_empty", .vNull⟩],
    output_variable := some "v2" }

/-- A first step with no `on_error` setting. -/
def stepFail1 : WStep := { step_order := 1, name := "failing", output_variable := some "v1" }

/-- The same step with `on_error: "continue"`. -/
def stepFail1c : WStep :=
  { step_order := 1, name := "failing", output_variable := some "v1",
    on_error := some "continue" }

/-- A second step following the failing one. -/
def stepAfter : WStep := { step_order := 2, name := "after", output_variable := some "v2" }

/-- A step oracle failing step 1 with message `boom` and succeeding on any
other step. -/
def execFailFirst : WStep → Ctx → ExecOutcome := fun s _ =>
  if s.step_order == 1 then .ok { success := false, error := some "boom" }
  else .ok { success := true, output := .vStr "second ran" }

/-- A step oracle that always throws. -/
def execThrow : WStep → Ctx → ExecOutcome := fun _ _ => .threw "kaput"

/-- A step oracle succeeding with output `out<order>`. -/
def execOk : WStep → Ctx → ExecOutcome := fun s _ =>
  .ok { success := true, output := .vStr ("out" ++ toString s.step_order) }

/-- P2 scenario, step 1. -/
def p2s1 : WStep := { step_order := 1, name := "s1", output_variable := some "v1" }

/-- P2 scenario, step 2, whose guard `\x7b\x7bflag\x7d\x7d equals "yes"`
fails on the fixture context. -/
def p2s2 : WStep :=
  { step_order := 2, name := "s2",
    run_conditions := [⟨"\x7b\x7bflag\x7d\x7d", "equals", .vStr "yes"⟩],
    output_variable := some "v2" }

/-- P2 scenario, step 3. -/
def p2s3 : WStep := { step_order := 3, name := "s3", output_variable := some "v3" }

/-- P2 scenario context (`flag` = "no", so step 2's guard fails). -/
def p2ctx : Ctx := [("flag", .vStr "no")]

/-- A small event/template store fixture. -/
def dbFix : List EdgeFn.WorkflowTemplate :=
  [{ id := "wf-1", name := "Intake Agent", trigger_event := "contact.created",
     is_active := true, workflow_steps := [p2s1] }]

/-- An already-processed event of the matching type. -/
def evProcessed : EdgeFn.EventRec :=
  { id := "ev-1", event_type := "contact.created", processed := true }

/-! ## Claim theorems -/

/-- C1: once the `running` run row exists, both executors always leave it at
a terminal status with a completion timestamp: `failed` when an exception
escaped the loop (converted by the defensive catch-all, carrying the
exception message) or — in the CLI executor — when a step recorded a
(truthy) error; else `stopped` when a step set the stop flag; else
`completed`.  No run is ever left at `running`. -/
theorem C1_runs_always_reach_terminal_status :
    ∀ (exec : WStep → Ctx → ExecOutcome) (wfSteps : List WStep) (init : Ctx),
      ((CLIExec.executeWorkflow exec wfSteps init).run.completed_at = true ∧
       (CLIExec.executeWorkflow exec wfSteps init).run.status ≠ "running" ∧
       (CLIExec.executeWorkflow exec wfSteps init).run.status ∈
         (["failed", "stopped", "completed"] : List String) ∧
       (CLIExec.executeWorkflow exec wfSteps init).run.status =
         (match (CLIExec.executeWorkflow exec wfSteps init).state.threw with
          | some _ => "failed"
          | none =>
            if errTruthy (CLIExec.executeWorkflow exec wfSteps init).state.error then "failed"
            else if (CLIExec.executeWorkflow exec wfSteps init).state.shouldStop then "stopped"
            else "completed") ∧
       (CLIExec.executeWorkflow exec wfSteps init).run.error_message =
         (match (CLIExec.executeWorkflow exec wfSteps init).state.threw with
          | some m => some m
          | none => (CLIExec.executeWorkflow exec wfSteps init).state.error)) ∧
      ((EdgeFn.executeWorkflow exec wfSteps init).run.completed_at = true ∧
       (EdgeFn.executeWorkflow exec wfSteps init).run.status ≠ "running" ∧
       (EdgeFn.executeWorkflow exec wfSteps init).run.status ∈
         (["failed", "stopped", "completed"] : List String) ∧
       (EdgeFn.executeWorkflow exec wfSteps init).run.status =
         (match (EdgeFn.executeWorkflow exec wfSteps init).state.threw with
          | some _ => "failed"
          | none =>
            if errTruthy (EdgeFn.executeWorkflow exec wfSteps init).state.error then "failed"
            else if (EdgeFn.executeWorkflow exec wfSteps init).state.shouldStop then "stopped"
            else "completed") ∧
       (EdgeFn.executeWorkflow exec wfSteps init).run.error_message =
         (match (EdgeFn.executeWorkflow exec wfSteps init).state.threw with
          | some m => some m
          | none => (EdgeFn.executeWorkflow exec wfSteps init).state.error)) := by
  intro exec wfSteps init
  constructor
  · cases hth : (CLIExec.runSteps exec (List.insertionSort stepLe wfSteps) { ctx := init }).threw with
    | none =>
      by_cases he : errTruthy (CLIExec.runSteps exec (List.insertionSort stepLe wfSteps)
          { ctx := init }).error <;>
        by_cases hs : (CLIExec.runSteps exec (List.insertionSort stepLe wfSteps)
            { ctx := init }).shouldStop <;>
          simp [CLIExec.executeWorkflow, hth, he, hs]
    | some m => simp [CLIExec.executeWorkflow, hth]
  · cases hth : (EdgeFn.runSteps exec (List.insertionSort stepLe wfSteps) { ctx := init }).threw with
    | none =>
      by_cases he : errTruthy (EdgeFn.runSteps exec (List.insertionSort stepLe wfSteps)
          { ctx := init }).error <;>
        by_cases hs : (EdgeFn.runSteps exec (List.insertionSort stepLe wfSteps)
            { ctx := init }).shouldStop <;>
          simp [EdgeFn.executeWorkflow, hth, he, hs]
    | some m => simp [EdgeFn.executeWorkflow, hth]

/-- `setKey` introduces no key other than the assigned one. -/
theorem ctxKeys_setKey {ctx : Ctx} {k : String} {x : JVal} {v : String}
    (h : v ∈ ctxKeys (setKey ctx k x)) : v ∈ ctxKeys ctx ∨ v = k := by
  unfold setKey at h
  split at h
  · unfold ctxKeys at h
    rw [List.map_map, List.mem_map] at h
    obtain ⟨p, hp, hv⟩ := h
    simp only [Function.comp_apply] at hv
    by_cases hpk : p.1 == k
    · rw [if_pos hpk] at hv
      exact Or.inr hv.symm
    · rw [if_neg hpk] at hv
      exact Or.inl (List.mem_map.mpr ⟨p, hp, hv⟩)
  · unfold ctxKeys at h ⊢
    rw [List.map_append, List.mem_append] at h
    rcases h with h | h
    · exact Or.inl h
    · simp at h
      exact Or.inr h

/-- `bindOutput` introduces no key outside the step's possible keys. -/
theorem bindOutput_keys {s : WStep} {r : StepResult} {ctx : Ctx} {v : String}
    (h : v ∈ ctxKeys (bindOutput s r ctx)) : v ∈ ctxKeys ctx ∨ v ∈ possibleKeys s := by
  unfold bindOutput at h
  rcases hov : s.output_variable with _ | ov <;> rw [hov] at h
  · exact Or.inl h
  · have h2 : v ∈ ctxKeys
        (if (ov != "" && !(isUndefined r.output)) = true then setKey ctx ov r.output else ctx) := h
    by_cases hb : (ov != "" && !(isUndefined r.output)) = true
    · rw [if_pos hb] at h2
      rcases ctxKeys_setKey h2 with h2 | h2
      · exact Or.inl h2
      · exact Or.inr (by simp [possibleKeys, hov, h2])
    · rw [if_neg hb] at h2
      exact Or.inl h2

/-- The continued-failure error key is one of the step's possible keys. -/
theorem errKeyOf_mem_possibleKeys (s : WStep) : errKeyOf s ∈ possibleKeys s := by
  unfold errKeyOf possibleKeys
  rcases hov : s.output_variable with _ | ov
  · simp
  · by_cases hov2 : ov != ""
    · simp [hov2]
    · simp [hov2]

/-- The CLI loop only appends to the ghost `execCalls` trace. -/
theorem cli_runSteps_execCalls_mono (exec : WStep → Ctx → ExecOutcome)
    (l : List WStep) (st : RunState) :
    ∃ ext, (CLIExec.runSteps exec l st).execCalls = st.execCalls ++ ext := by
  induction l, st using CLIExec.runSteps.induct exec with
  | case1 st => exact ⟨[], by simp [CLIExec.runSteps]⟩
  | case2 s rest st hstop => exact ⟨[], by rw [CLIExec.runSteps, if_pos hstop]; simp⟩
  | case3 s rest st hstop hg ihr =>
    obtain ⟨ext, he⟩ := ihr
    refine ⟨ext, ?_⟩
    rw [CLIExec.runSteps, if_neg hstop, if_pos hg]
    simpa using he
  | case4 s rest st hstop hg m hth =>
    refine ⟨[(s.step_order, st.ctx)], ?_⟩
    rw [CLIExec.runSteps, if_neg hstop, if_neg hg, hth]
  | case5 s rest st hstop hg r hok hsucc ihr =>
    obtain ⟨ext, he⟩ := ihr
    refine ⟨(s.step_order, st.ctx) :: ext, ?_⟩
    rw [CLIExec.runSteps, if_neg hstop, if_neg hg, hok]
    simp only [hsucc, if_pos]
    rw [he]
    simp
  | case6 s rest st hstop hg r hok hns hoe ihr =>
    obtain ⟨ext, he⟩ := ihr
    refine ⟨(s.step_order, st.ctx) :: ext, ?_⟩
    rw [CLIExec.runSteps, if_neg hstop, if_neg hg, hok]
    simp only [hns, Bool.false_eq_true, if_false, hoe, if_pos]
    rw [he]
    simp
  | case7 s rest st hstop hg r hok hns hoe ihr =>
    obtain ⟨ext, he⟩ := ihr
    refine ⟨(s.step_order, st.ctx) :: ext, ?_⟩
    rw [CLIExec.runSteps, if_neg hstop, if_neg hg, hok]
    simp only [hns, Bool.false_eq_true, if_false, hoe]
    rw [he]
    simp

/-- The step orders of the log rows a CLI loop run appends are the orders of
an initial segment of the remaining step list: one row per processed step
(executed or skipped), in list order, none after the loop stops or an
exception escapes. -/
theorem cli_runSteps_logs_take (exec : WStep → Ctx → ExecOutcome)
    (l : List WStep) (st : RunState) :
    ∃ k, (CLIExec.runSteps exec l st).logs.map LogRow.step_order =
      st.logs.map LogRow.step_order ++ (l.map WStep.step_order).take k := by
  induction l, st using CLIExec.runSteps.induct exec with
  | case1 st => exact ⟨0, by simp [CLIExec.runSteps]⟩
  | case2 s rest st hstop => exact ⟨0, by rw [CLIExec.runSteps, if_pos hstop]; simp⟩
  | case3 s rest st hstop hg ihr =>
    obtain ⟨k, he⟩ := ihr
    refine ⟨k + 1, ?_⟩
    rw [CLIExec.runSteps, if_neg hstop, if_pos hg]
    rw [he]
    simp [skipLog]
  | case4 s rest st hstop hg m hth =>
    refine ⟨0, ?_⟩
    rw [CLIExec.runSteps, if_neg hstop, if_neg hg, hth]
    simp
  | case5 s rest st hstop hg r hok hsucc ihr =>
    obtain ⟨k, he⟩ := ihr
    refine ⟨k + 1, ?_⟩
    rw [CLIExec.runSteps, if_neg hstop, if_neg hg, hok]
    simp only [hsucc, if_pos]
    rw [he]
    simp [execLog]
  | case6 s rest st hstop hg r hok hns hoe ihr =>
    obtain ⟨k, he⟩ := ihr
    refine ⟨k + 1, ?_⟩
    rw [CLIExec.runSteps, if_neg hstop, if_neg hg, hok]
    simp only [hns, Bool.false_eq_true, if_false, hoe, if_pos]
    rw [he]
    simp [execLog]
  | case7 s rest st hstop hg r hok hns hoe ihr =>
    obtain ⟨k, he⟩ := ihr
    refine ⟨k + 1, ?_⟩
    rw [CLIExec.runSteps, if_neg hstop, if_neg hg, hok]
    simp only [hns, Bool.false_eq_true, if_false, hoe]
    rw [he]
    simp [execLog]

/-- If a key absent from the starting context appears in the final context
or in the context passed to any `executeStep` invocation of the extension,
then some step of the list that can bind that key was actually executed
(its order is on the ghost `execCalls` trace). -/
theorem cli_runSteps_key_origin (exec : WStep → Ctx → ExecOutcome) (v : String) :
    ∀ (l : List WStep) (st : RunState),
      ¬ v ∈ ctxKeys st.ctx →
      (v ∈ ctxKeys (CLIExec.runSteps exec l st).ctx ∨
        ∃ c, c ∈ (CLIExec.runSteps exec l st).execCalls ∧ ¬ c ∈ st.execCalls ∧
          v ∈ ctxKeys c.2) →
      ∃ s, s ∈ l ∧ v ∈ possibleKeys s ∧
        s.step_order ∈ (CLIExec.runSteps exec l st).execCalls.map Prod.fst := by
  intro l st
  induction l, st using CLIExec.runSteps.induct exec with
  | case1 st =>
    intro hv hnew
    rw [CLIExec.runSteps] at hnew
    rcases hnew with hnew | ⟨c, hc1, hc2, _⟩
    · exact absurd hnew hv
    · exact absurd hc1 hc2
  | case2 s rest st hstop =>
    intro hv hnew
    rw [CLIExec.runSteps, if_pos hstop] at hnew
    rcases hnew with hnew | ⟨c, hc1, hc2, _⟩
    · exact absurd hnew hv
    · exact absurd hc1 hc2
  | case3 s rest st hstop hg ihr =>
    intro hv hnew
    rw [CLIExec.runSteps, if_neg hstop, if_pos hg] at hnew ⊢
    obtain ⟨s', hs1, hs2, hs3⟩ := ihr hv hnew
    exact ⟨s', List.mem_cons_of_mem s hs1, hs2, hs3⟩
  | case4 s rest st hstop hg m hth =>
    intro hv hnew
    rw [CLIExec.runSteps, if_neg hstop, if_neg hg, hth] at hnew
    rcases hnew with hnew | ⟨c, hc1, hc2, hc3⟩
    · exact absurd hnew hv
    · simp only [List.mem_append, List.mem_singleton] at hc1
      rcases hc1 with hc1 | hc1
      · exact absurd hc1 hc2
      · rw [hc1] at hc3
        exact absurd hc3 hv
  | case5 s rest st hstop hg r hok hsucc ihr =>
    intro hv hnew
    rw [CLIExec.runSteps, if_neg hstop, if_neg hg, hok] at hnew ⊢
    simp only [hsucc, if_pos] at hnew ⊢
    by_cases hvs : v ∈ possibleKeys s
    · refine ⟨s, List.mem_cons_self s rest, hvs, ?_⟩
      obtain ⟨ext, he⟩ := cli_runSteps_execCalls_mono exec rest
        { st with currentStepOrder := s.step_order,
                  execCalls := st.execCalls ++ [(s.step_order, st.ctx)],
                  logs := st.logs ++ [execLog s r],
                  ctx := bindOutput s r st.ctx,
                  shouldStop := r.stop,
                  emitted := st.emitted ++
                    (match r.emit_event with | some e => [e] | none => []) }
      rw [he]
      simp
    · have hv6 : ¬ v ∈ ctxKeys (bindOutput s r st.ctx) := by
        intro hmem
        rcases bindOutput_keys hmem with hmem | hmem
        · exact hv hmem
        · exact hvs hmem
      have hnew6 : v ∈ ctxKeys (CLIExec.runSteps exec rest
            { st with currentStepOrder := s.step_order,
                      execCalls := st.execCalls ++ [(s.step_order, st.ctx)],
                      logs := st.logs ++ [execLog s r],
                      ctx := bindOutput s r st.ctx,
                      shouldStop := r.stop,
                      emitted := st.emitted ++
                        (match r.emit_event with | some e => [e] | none => []) }).ctx ∨
          ∃ c, c ∈ (CLIExec.runSteps exec rest
            { st with currentStepOrder := s.step_order,
                      execCalls := st.execCalls ++ [(s.step_order, st.ctx)],
                      logs := st.logs ++ [execLog s r],
                      ctx := bindOutput s r st.ctx,
                      shouldStop := r.stop,
                      emitted := st.emitted ++
                        (match r.emit_event with | some e => [e] | none => []) }).execCalls ∧
            ¬ c ∈ (st.execCalls ++ [(s.step_order, st.ctx)]) ∧ v ∈ ctxKeys c.2 := by
        rcases hnew with hnew | ⟨c, hc1, hc2, hc3⟩
        · exact Or.inl hnew
        · refine Or.inr ⟨c, hc1, ?_, hc3⟩
          intro hcmem
          simp only [List.mem_append, List.mem_singleton] at hcmem
          rcases hcmem with hcmem | hcmem
          · exact hc2 hcmem
          · rw [hcmem] at hc3
            exact hv hc3
      obtain ⟨s', hs1, hs2, hs3⟩ := ihr hv6 hnew6
      exact ⟨s', List.mem_cons_of_mem s hs1, hs2, hs3⟩
  | case6 s rest st hstop hg r hok hns hoe ihr =>
    intro hv hnew
    rw [CLIExec.runSteps, if_neg hstop, if_neg hg, hok] at hnew ⊢
    simp only [hns, Bool.false_eq_true, if_false, hoe, if_pos] at hnew ⊢
    by_cases hvs : v ∈ possibleKeys s
    · refine ⟨s, List.mem_cons_self s rest, hvs, ?_⟩
      obtain ⟨ext, he⟩ := cli_runSteps_execCalls_mono exec rest
        { st with currentStepOrder := s.step_order,
                  execCalls := st.execCalls ++ [(s.step_order, st.ctx)],
                  logs := st.logs ++ [execLog s r],
                  ctx := setKey st.ctx (errKeyOf s) (errMarker r.error) }
      rw [he]
      simp
    · have hv6 : ¬ v ∈ ctxKeys (setKey st.ctx (errKeyOf s) (errMarker r.error)) := by
        intro hmem
        rcases ctxKeys_setKey hmem with hmem | hmem
        · exact hv hmem
        · exact hvs (hmem ▸ errKeyOf_mem_possibleKeys s)
      have hnew6 : v ∈ ctxKeys (CLIExec.runSteps exec rest
            { st with currentStepOrder := s.step_order,
                      execCalls := st.execCalls ++ [(s.step_order, st.ctx)],
                      logs := st.logs ++ [execLog s r],
                      ctx := setKey st.ctx (errKeyOf s) (errMarker r.error) }).ctx ∨
          ∃ c, c ∈ (CLIExec.runSteps exec rest
            { st with currentStepOrder := s.step_order,
                      execCalls := st.execCalls ++ [(s.step_order, st.ctx)],
                      logs := st.logs ++ [execLog s r],
                      ctx := setKey st.ctx (errKeyOf s) (errMarker r.error) }).execCalls ∧
            ¬ c ∈ (st.execCalls ++ [(s.step_order, st.ctx)]) ∧ v ∈ ctxKeys c.2 := by
        rcases hnew with hnew | ⟨c, hc1, hc2, hc3⟩
        · exact Or.inl hnew
        · refine Or.inr ⟨c, hc1, ?_, hc3⟩
          intro hcmem
          simp only [List.mem_append, List.mem_singleton] at hcmem
          rcases hcmem with hcmem | hcmem
          · exact hc2 hcmem
          · rw [hcmem] at hc3
            exact hv hc3
      obtain ⟨s', hs1, hs2, hs3⟩ := ihr hv6 hnew6
      exact ⟨s', List.mem_cons_of_mem s hs1, hs2, hs3⟩
  | case7 s rest st hstop hg r hok hns hoe ihr =>
    intro hv hnew
    rw [CLIExec.runSteps, if_neg hstop, if_neg hg, hok] at hnew ⊢
    simp only [hns, Bool.false_eq_true, if_false, hoe] at hnew ⊢
    by_cases hvs : v ∈ possibleKeys s
    · refine ⟨s, List.mem_cons_self s rest, hvs, ?_⟩
      obtain ⟨ext, he⟩ := cli_runSteps_execCalls_mono exec rest
        { st with currentStepOrder := s.step_order,
                  execCalls := st.execCalls ++ [(s.step_order, st.ctx)],
                  logs := st.logs ++ [execLog s r],
                  error := r.error, shouldStop := true }
      rw [he]
      simp
    · have hnew6 : v ∈ ctxKeys (CLIExec.runSteps exec rest
            { st with currentStepOrder := s.step_order,
                      execCalls := st.execCalls ++ [(s.step_order, st.ctx)],
                      logs := st.logs ++ [execLog s r],
                      error := r.error, shouldStop := true }).ctx ∨
          ∃ c, c ∈ (CLIExec.runSteps exec rest
            { st with currentStepOrder := s.step_order,
                      execCalls := st.execCalls ++ [(s.step_order, st.ctx)],
                      logs := st.logs ++ [execLog s r],
                      error := r.error, shouldStop := true }).execCalls ∧
            ¬ c ∈ (st.execCalls ++ [(s.step_order, st.ctx)]) ∧ v ∈ ctxKeys c.2 := by
        rcases hnew with hnew | ⟨c, hc1, hc2, hc3⟩
        · exact Or.inl hnew
        · refine Or.inr ⟨c, hc1, ?_, hc3⟩
          intro hcmem
          simp only [List.mem_append, List.mem_singleton] at hcmem
          rcases hcmem with hcmem | hcmem
          · exact hc2 hcmem
          · rw [hcmem] at hc3
            exact hv hc3
      obtain ⟨s', hs1, hs2, hs3⟩ := ihr hv hnew6
      exact ⟨s', List.mem_cons_of_mem s hs1, hs2, hs3⟩

/-- The edge-function loop only appends to the ghost `execCalls` trace. -/
theorem ef_runSteps_execCalls_mono (exec : WStep → Ctx → ExecOutcome)
    (l : List WStep) (st : RunState) :
    ∃ ext, (EdgeFn.runSteps exec l st).execCalls = st.execCalls ++ ext := by
  induction l, st using EdgeFn.runSteps.induct exec with
  | case1 st => exact ⟨[], by simp [EdgeFn.runSteps]⟩
  | case2 s rest st hstop => exact ⟨[], by rw [EdgeFn.runSteps, if_pos hstop]; simp⟩
  | case3 s rest st hstop hg ihr =>
    obtain ⟨ext, he⟩ := ihr
    refine ⟨ext, ?_⟩
    rw [EdgeFn.runSteps, if_neg hstop, if_pos hg]
    simpa using he
  | case4 s rest st hstop hg m hth =>
    refine ⟨[(s.step_order, st.ctx)], ?_⟩
    rw [EdgeFn.runSteps, if_neg hstop, if_neg hg, hth]
  | case5 s rest st hstop hg r hok hsucc ihr =>
    obtain ⟨ext, he⟩ := ihr
    refine ⟨(s.step_order, st.ctx) :: ext, ?_⟩
    rw [EdgeFn.runSteps, if_neg hstop, if_neg hg, hok]
    simp only [hsucc, if_pos]
    rw [he]
    simp
  | case6 s rest st hstop hg r hok hns ihr =>
    obtain ⟨ext, he⟩ := ihr
    refine ⟨(s.step_order, st.ctx) :: ext, ?_⟩
    rw [EdgeFn.runSteps, if_neg hstop, if_neg hg, hok]
    simp only [hns, Bool.false_eq_true, if_false]
    rw [he]
    simp

/-- The step orders of the log rows an edge-function loop run appends are
the orders of an initial segment of the remaining step list. -/
theorem ef_runSteps_logs_take (exec : WStep → Ctx → ExecOutcome)
    (l : List WStep) (st : RunState) :
    ∃ k, (EdgeFn.runSteps exec l st).logs.map LogRow.step_order =
      st.logs.map LogRow.step_order ++ (l.map WStep.step_order).take k := by
  induction l, st using EdgeFn.runSteps.induct exec with
  | case1 st => exact ⟨0, by simp [EdgeFn.runSteps]⟩
  | case2 s rest st hstop => exact ⟨0, by rw [EdgeFn.runSteps, if_pos hstop]; simp⟩
  | case3 s rest st hstop hg ihr =>
    obtain ⟨k, he⟩ := ihr
    refine ⟨k + 1, ?_⟩
    rw [EdgeFn.runSteps, if_neg hstop, if_pos hg]
    rw [he]
    simp [skipLog]
  | case4 s rest st hstop hg m hth =>
    refine ⟨0, ?_⟩
    rw [EdgeFn.runSteps, if_neg hstop, if_neg hg, hth]
    simp
  | case5 s rest st hstop hg r hok hsucc ihr =>
    obtain ⟨k, he⟩ := ihr
    refine ⟨k + 1, ?_⟩
    rw [EdgeFn.runSteps, if_neg hstop, if_neg hg, hok]
    simp only [hsucc, if_pos]
    rw [he]
    simp [execLog]
  | case6 s rest st hstop hg r hok hns ihr =>
    obtain ⟨k, he⟩ := ihr
    refine ⟨k + 1, ?_⟩
    rw [EdgeFn.runSteps, if_neg hstop, if_neg hg, hok]
    simp only [hns, Bool.false_eq_true, if_false]
    rw [he]
    simp [execLog]

/-- Edge-function analogue of the key-origin lemma: a key absent from the
starting context appears in the final context or in an extension call's
context only if some step of the list that can bind it was executed. -/
theorem ef_runSteps_key_origin (exec : WStep → Ctx → ExecOutcome) (v : String) :
    ∀ (l : List WStep) (st : RunState),
      ¬ v ∈ ctxKeys st.ctx →
      (v ∈ ctxKeys (EdgeFn.runSteps exec l st).ctx ∨
        ∃ c, c ∈ (EdgeFn.runSteps exec l st).execCalls ∧ ¬ c ∈ st.execCalls ∧
          v ∈ ctxKeys c.2) →
      ∃ s, s ∈ l ∧ v ∈ possibleKeys s ∧
        s.step_order ∈ (EdgeFn.runSteps exec l st).execCalls.map Prod.fst := by
  intro l st
  induction l, st using EdgeFn.runSteps.induct exec with
  | case1 st =>
    intro hv hnew
    rw [EdgeFn.runSteps] at hnew
    rcases hnew with hnew | ⟨c, hc1, hc2, _⟩
    · exact absurd hnew hv
    · exact absurd hc1 hc2
  | case2 s rest st hstop =>
    intro hv hnew
    rw [EdgeFn.runSteps, if_pos hstop] at hnew
    rcases hnew with hnew | ⟨c, hc1, hc2, _⟩
    · exact absurd hnew hv
    · exact absurd hc1 hc2
  | case3 s rest st hstop hg ihr =>
    intro hv hnew
    rw [EdgeFn.runSteps, if_neg hstop, if_pos hg] at hnew ⊢
    obtain ⟨s', hs1, hs2, hs3⟩ := ihr hv hnew
    exact ⟨s', List.mem_cons_of_mem s hs1, hs2, hs3⟩
  | case4 s rest st hstop hg m hth =>
    intro hv hnew
    rw [EdgeFn.runSteps, if_neg hstop, if_neg hg, hth] at hnew
    rcases hnew with hnew | ⟨c, hc1, hc2, hc3⟩
    · exact absurd hnew hv
    · simp only [List.mem_append, List.mem_singleton] at hc1
      rcases hc1 with hc1 | hc1
      · exact absurd hc1 hc2
      · rw [hc1] at hc3
        exact absurd hc3 hv
  | case5 s rest st hstop hg r hok hsucc ihr =>
    intro hv hnew
    rw [EdgeFn.runSteps, if_neg hstop, if_neg hg, hok] at hnew ⊢
    simp only [hsucc, if_pos] at hnew ⊢
    by_cases hvs : v ∈ possibleKeys s
    · refine ⟨s, List.mem_cons_self s rest, hvs, ?_⟩
      obtain ⟨ext, he⟩ := ef_runSteps_execCalls_mono exec rest
        { st with currentStepOrder := s.step_order,
                  execCalls := st.execCalls ++ [(s.step_order, st.ctx)],
                  logs := st.logs ++ [execLog s r],
                  ctx := bindOutput s r st.ctx,
                  shouldStop := r.stop,
                  emitted := st.emitted ++
                    (match r.emit_event with | some e => [e] | none => []) }
      rw [he]
      simp
    · have hv6 : ¬ v ∈ ctxKeys (bindOutput s r st.ctx) := by
        intro hmem
        rcases bindOutput_keys hmem with hmem | hmem
        · exact hv hmem
        · exact hvs hmem
      have hnew6 : v ∈ ctxKeys (EdgeFn.runSteps exec rest
            { st with currentStepOrder := s.step_order,
                      execCalls := st.execCalls ++ [(s.step_order, st.ctx)],
                      logs := st.logs ++ [execLog s r],
                      ctx := bindOutput s r st.ctx,
                      shouldStop := r.stop,
                      emitted := st.emitted ++
                        (match r.emit_event with | some e => [e] | none => []) }).ctx ∨
          ∃ c, c ∈ (EdgeFn.runSteps exec rest
            { st with currentStepOrder := s.step_order,
                      execCalls := st.execCalls ++ [(s.step_order, st.ctx)],
                      logs := st.logs ++ [execLog s r],
                      ctx := bindOutput s r st.ctx,
                      shouldStop := r.stop,
                      emitted := st.emitted ++
                        (match r.emit_event with | some e => [e] | none => []) }).execCalls ∧
            ¬ c ∈ (st.execCalls ++ [(s.step_order, st.ctx)]) ∧ v ∈ ctxKeys c.2 := by
        rcases hnew with hnew | ⟨c, hc1, hc2, hc3⟩
        · exact Or.inl hnew
        · refine Or.inr ⟨c, hc1, ?_, hc3⟩
          intro hcmem
          simp only [List.mem_append, List.mem_singleton] at hcmem
          rcases hcmem with hcmem | hcmem
          · exact hc2 hcmem
          · rw [hcmem] at hc3
            exact hv hc3
      obtain ⟨s', hs1, hs2, hs3⟩ := ihr hv6 hnew6
      exact ⟨s', List.mem_cons_of_mem s hs1, hs2, hs3⟩
  | case6 s rest st hstop hg r hok hns ihr =>
    intro hv hnew
    rw [EdgeFn.runSteps, if_neg hstop, if_neg hg, hok] at hnew ⊢
    simp only [hns, Bool.false_eq_true, if_false] at hnew ⊢
    by_cases hvs : v ∈ possibleKeys s
    · refine ⟨s, List.mem_cons_self s rest, hvs, ?_⟩
      obtain ⟨ext, he⟩ := ef_runSteps_execCalls_mono exec rest
        { st with currentStepOrder := s.step_order,
                  execCalls := st.execCalls ++ [(s.step_order, st.ctx)],
                  logs := st.logs ++ [execLog s r],
                  ctx := setKey st.ctx (errKeyOf s) (errMarker r.error) }
      rw [he]
      simp
    · have hv6 : ¬ v ∈ ctxKeys (setKey st.ctx (errKeyOf s) (errMarker r.error)) := by
        intro hmem
        rcases ctxKeys_setKey hmem with hmem | hmem
        · exact hv hmem
        · exact hvs (hmem ▸ errKeyOf_mem_possibleKeys s)
      have hnew6 : v ∈ ctxKeys (EdgeFn.runSteps exec rest
            { st with currentStepOrder := s.step_order,
                      execCalls := st.execCalls ++ [(s.step_order, st.ctx)],
                      logs := st.logs ++ [execLog s r],
                      ctx := setKey st.ctx (errKeyOf s) (errMarker r.error) }).ctx ∨
          ∃ c, c ∈ (EdgeFn.runSteps exec rest
            { st with currentStepOrder := s.step_order,
                      execCalls := st.execCalls ++ [(s.step_order, st.ctx)],
                      logs := st.logs ++ [execLog s r],
                      ctx := setKey st.ctx (errKeyOf s) (errMarker r.error) }).execCalls ∧
            ¬ c ∈ (st.execCalls ++ [(s.step_order, st.ctx)]) ∧ v ∈ ctxKeys c.2 := by
        rcases hnew with hnew | ⟨c, hc1, hc2, hc3⟩
        · exact Or.inl hnew
        · refine Or.inr ⟨c, hc1, ?_, hc3⟩
          intro hcmem
          simp only [List.mem_append, List.mem_singleton] at hcmem
          rcases hcmem with hcmem | hcmem
          · exact hc2 hcmem
          · rw [hcmem] at hc3
            exact hv hc3
      obtain ⟨s', hs1, hs2, hs3⟩ := ihr hv6 hnew6
      exact ⟨s', List.mem_cons_of_mem s hs1, hs2, hs3⟩

/-- A stopped loop state is final: the CLI loop breaks immediately. -/
theorem cli_runSteps_stopped (exec : WStep → Ctx → ExecOutcome) (l : List WStep)
    (st : RunState) (h : st.shouldStop = true) : CLIExec.runSteps exec l st = st := by
  cases l with
  | nil => rfl
  | cons s rest => simp [CLIExec.runSteps, h]

/-- C2 counterexample: the edge-function executor ignores `on_error` — a
step failing with `on_error` absent binds an error marker, execution
proceeds to the next step, and the run completes instead of failing. -/
theorem C2_counterexample_edge_function_ignores_on_error :
    stepFail1.on_error = none ∧
    (EdgeFn.executeWorkflow execFailFirst [stepFail1, stepAfter] []).status = "completed" ∧
    (EdgeFn.executeWorkflow execFailFirst [stepFail1, stepAfter] []).state.execCalls.map
      Prod.fst = [1, 2] ∧
    (EdgeFn.executeWorkflow execFailFirst [stepFail1, stepAfter] []).state.ctx =
      [("v1", errMarker (some "boom")), ("v2", .vStr "second ran")] := by
  exact ⟨rfl, rfl, rfl, rfl⟩

/-- C2 (amended): the claimed `on_error` policy holds in the CLI executor —
a failing step with `on_error: "continue"` binds `\x7berror:true, message\x7d`
under its output variable (or the synthesized `step_<order>_error` key) and
execution proceeds, while any other `on_error` records the error message,
executes no further step, and (message being nonempty) the run ends
`failed`; the edge-function executor instead treats every failure as
`continue` (see the counterexample). -/
theorem C2_on_error_policy_in_cli_executor :
    (∀ (exec : WStep → Ctx → ExecOutcome) (s : WStep) (rest : List WStep)
       (st : RunState) (r : StepResult),
       st.shouldStop = false →
       (s.run_conditions = [] ∨ CLIExec.evaluateConditions s.run_conditions st.ctx = true) →
       exec s st.ctx = .ok r →
       r.success = false →
       ((s.on_error = some "continue" →
          CLIExec.runSteps exec (s :: rest) st =
            CLIExec.runSteps exec rest
              { st with currentStepOrder := s.step_order,
                        execCalls := st.execCalls ++ [(s.step_order, st.ctx)],
                        logs := st.logs ++ [execLog s r],
                        ctx := setKey st.ctx (errKeyOf s) (errMarker r.error) }) ∧
        (s.on_error ≠ some "continue" →
          CLIExec.runSteps exec (s :: rest) st =
            { st with currentStepOrder := s.step_order,
                      execCalls := st.execCalls ++ [(s.step_order, st.ctx)],
                      logs := st.logs ++ [execLog s r],
                      error := r.error, shouldStop := true }))) ∧
    (CLIExec.executeWorkflow execFailFirst [stepFail1, stepAfter] []).status = "failed" ∧
    (CLIExec.executeWorkflow execFailFirst [stepFail1, stepAfter] []).run.error_message =
      some "boom" ∧
    (CLIExec.executeWorkflow execFailFirst [stepFail1, stepAfter] []).state.execCalls.map
      Prod.fst = [1] ∧
    (CLIExec.executeWorkflow execFailFirst [stepFail1c, stepAfter] []).status = "completed" ∧
    (CLIExec.executeWorkflow execFailFirst [stepFail1c, stepAfter] []).state.execCalls.map
      Prod.fst = [1, 2] ∧
    (CLIExec.executeWorkflow execFailFirst [stepFail1c, stepAfter] []).state.ctx =
      [("v1", errMarker (some "boom")), ("v2", .vStr "second ran")] := by
  refine ⟨?_, rfl, rfl, rfl, rfl, rfl, rfl⟩
  intro exec s rest st r h1 hg hexec hrs
  have hguard : (s.run_conditions.length != 0 &&
      !(CLIExec.evaluateConditions s.run_conditions st.ctx)) = false := by
    rcases hg with hg | hg
    · simp [hg]
    · simp [hg]
  constructor
  · intro hoe
    simp [CLIExec.runSteps, h1, hguard, hexec, hrs, hoe]
  · intro hne
    have hoe : (s.on_error == some "continue") = false := by
      simp only [beq_eq_false_iff_ne, ne_eq]
      exact hne
    simp [CLIExec.runSteps, h1, hguard, hexec, hrs, hoe, cli_runSteps_stopped]

/-- C2 witness: the policy applied at concrete states — the continue law on
`stepFail1c` and the stop law on `stepFail1`. -/
theorem C2_on_error_policy_in_cli_executor_witness :
    ((⟨[], [], false, none, 0, none, [], []⟩ : RunState).shouldStop = false ∧
     stepFail1c.run_conditions = [] ∧
     execFailFirst stepFail1c [] = .ok { success := false, error := some "boom" } ∧
     stepFail1c.on_error = some "continue" ∧
     CLIExec.runSteps execFailFirst [stepFail1c] ⟨[], [], false, none, 0, none, [], []⟩ =
       CLIExec.runSteps execFailFirst []
         { (⟨[], [], false, none, 0, none, [], []⟩ : RunState) with
           currentStepOrder := stepFail1c.step_order,
           execCalls := [(stepFail1c.step_order, [])],
           logs := [execLog stepFail1c { success := false, error := some "boom" }],
           ctx := setKey [] (errKeyOf stepFail1c) (errMarker (some "boom")) }) ∧
    (stepFail1.on_error ≠ some "continue" ∧
     CLIExec.runSteps execFailFirst [stepFail1] ⟨[], [], false, none, 0, none, [], []⟩ =
       { (⟨[], [], false, none, 0, none, [], []⟩ : RunState) with
         currentStepOrder := stepFail1.step_order,
         execCalls := [(stepFail1.step_order, [])],
         logs := [execLog stepFail1 { success := false, error := some "boom" }],
         error := some "boom", shouldStop := true }) := by
  have h1 := (C2_on_error_policy_in_cli_executor.1 execFailFirst stepFail1c []
    ⟨[], [], false, none, 0, none, [], []⟩ { success := false, error := some "boom" }
    rfl (Or.inl rfl) rfl rfl).1 rfl
  have h2 := (C2_on_error_policy_in_cli_executor.1 execFailFirst stepFail1 []
    ⟨[], [], false, none, 0, none, [], []⟩ { success := false, error := some "boom" }
    rfl (Or.inl rfl) rfl rfl).2 (by simp [stepFail1])
  exact ⟨⟨rfl, rfl, rfl, rfl, h1⟩, ⟨by simp [stepFail1], h2⟩⟩

/-- C3 counterexample: the CLI dispatch function `processEvent`
(cli/workflow-executor.js) performs no `processed` check of its own —
invoked on an already-processed event with a matching active workflow it
still hands the workflow to the engine — so "for every event with
processed=true, the dispatch path returns immediately and invokes the
Workflow Engine zero times" is false of that cited path. -/
theorem C3_counterexample_cli_processEvent_runs_processed_event :
    evProcessed.processed = true ∧
    CLIExec.processEvent dbFix evProcessed =
      { responseTag := "workflows_run", engineInvocations := ["wf-1"],
        markedProcessed := true } ∧
    (CLIExec.processEvent dbFix evProcessed).engineInvocations ≠ [] := by
  exact ⟨rfl, rfl, by decide⟩

/-- C3 (amended): re-delivery of a `processed=true` event is a no-op at
every *guarded* dispatch entry point — the edge function's request handler
and the Realtime listener's `handleNewEvent` return immediately with zero
engine invocations, and the CLI backlog sweep `processPendingEvents`
queries only `processed=false` rows, so a processed event never reaches
`processEvent` through it; the CLI `processEvent` itself, however, checks
nothing and runs matching workflows even for a processed event (see the
counterexample). -/
theorem C3_processed_event_noop_at_guarded_entry_points :
    (∀ (db : List EdgeFn.WorkflowTemplate) (ev : EdgeFn.EventRec),
       ev.processed = true →
       EdgeFn.serveHandler db ev =
         { responseTag := "already_processed", engineInvocations := [],
           markedProcessed := false } ∧
       EventProcessor.handleNewEvent db (some ev) =
         { responseTag := "ignored", engineInvocations := [],
           markedProcessed := false }) ∧
    (∀ (events : List EdgeFn.EventRec) (limit : Nat) (ev : EdgeFn.EventRec),
       ev.processed = true →
       ¬ ev ∈ ((events.filter fun e => e.processed == false).take limit)) ∧
    (∀ (db : List EdgeFn.WorkflowTemplate) (events : List EdgeFn.EventRec) (limit : Nat),
       CLIExec.processPendingEvents db events limit =
         ((events.filter fun e => e.processed == false).take limit).map
           (CLIExec.processEvent db)) := by
  refine ⟨?_, ?_, fun _ _ _ => rfl⟩
  · intro db ev h
    constructor <;> simp [EdgeFn.serveHandler, EventProcessor.handleNewEvent, h]
  · intro events limit ev h hmem
    have h2 := List.mem_filter.mp (List.take_subset limit _ hmem)
    rw [h] at h2
    exact absurd h2.2 (by decide)

/-- C3 witness: the guarded entry points and the backlog-sweep filter
applied to a concrete processed event against a store with a matching
active workflow. -/
theorem C3_processed_event_noop_at_guarded_entry_points_witness :
    evProcessed.processed = true ∧
    EdgeFn.serveHandler dbFix evProcessed =
      { responseTag := "already_processed", engineInvocations := [],
        markedProcessed := false } ∧
    EventProcessor.handleNewEvent dbFix (some evProcessed) =
      { responseTag := "ignored", engineInvocations := [], markedProcessed := false } ∧
    ¬ evProcessed ∈ (([evProcessed].filter fun e => e.processed == false).take 10) :=
  ⟨rfl,
    (C3_processed_event_noop_at_guarded_entry_points.1 dbFix evProcessed rfl).1,
    (C3_processed_event_noop_at_guarded_entry_points.1 dbFix evProcessed rfl).2,
    C3_processed_event_noop_at_guarded_entry_points.2.1 [evProcessed] 10 evProcessed rfl⟩

/-- C4 counterexample: in the CLI executor, an `ai_prompt` step executed
with no language-model credential returns `success:false` with
`Anthropic API key not configured` — not a successful skipped step — so the
claim is false of that executor. -/
theorem C4_counterexample_cli_no_key_fails_step :
    (CLIExec.executeAiPrompt false (fun _ _ => { success := true }) {} []).success = false ∧
    CLIExec.executeAiPrompt false (fun _ _ => { success := true }) {} [] =
      { success := false, error := some "Anthropic API key not configured" } := by
  exact ⟨rfl, rfl⟩

/-- C4 (amended): in the edge-function executor, an `ai_prompt` step with no
configured credential succeeds with `\x7bskipped:true, reason:"No API
key"\x7d`, and such a run completes rather than failing; the CLI executor
instead fails the step (see the counterexample). -/
theorem C4_no_key_skips_in_edge_function :
    (∀ (callModel : String → Int → String → StepResult)
       (cfg : EdgeFn.AiPromptConfig) (ctx : Ctx),
       EdgeFn.executeAiPrompt none callModel cfg ctx =
         { success := true,
           output := .vObj [("skipped", .vBool true), ("reason", .vStr "No API key")] }) ∧
    (∀ (callModel : String → Int → String → StepResult)
       (cfg : EdgeFn.AiPromptConfig) (ctx : Ctx),
       (EdgeFn.executeAiPrompt none callModel cfg ctx).success = true) ∧
    (EdgeFn.executeWorkflow
        (fun _ _ => .ok (EdgeFn.executeAiPrompt none (fun _ _ _ => { success := true }) {} []))
        [stepFail1, stepAfter] []).status = "completed" := by
  exact ⟨fun _ _ _ => rfl, fun _ _ _ => rfl, rfl⟩

/-- C5 counterexample: the fallback chain does not special-case quoted
literals — resolving `\x7b\x7ba.x || b.y || "default"\x7d\x7d` against
`\x7ba:\x7b\x7d, b:\x7b\x7d\x7d` leaves the placeholder text in place (the
chain's lookup of the key `"default"` is `undefined`), so it does not yield
the string `default` as the claim states. -/
theorem C5_counterexample_no_literal_default :
    EdgeFn.resolveTemplateStr tplFB ctxB = tplFB ∧
    EdgeFn.resolveTemplateStr tplFB ctxB ≠ "default" ∧
    EdgeFn.resolveTemplateObject (.vStr tplFB) ctxB = .vUndefined := by
  refine ⟨rfl, ?_, rfl⟩
  intro h
  exact absurd h (by decide)

/-- C5 (amended): the fallback chain is evaluated left to right and returns
the first alternative whose dotted-path lookup is not `undefined`, `null`,
or the empty string, so `\x7b\x7ba.x || b.y || "default"\x7d\x7d` against
`\x7ba:\x7bx:null\x7d, b:\x7by:"found"\x7d\x7d` yields `found`; but a
quoted alternative is looked up as an ordinary key, so against
`\x7ba:\x7b\x7d, b:\x7b\x7d\x7d` the chain resolves to `undefined` and the
placeholder is left verbatim (and the CLI executor has no fallback support
at all). -/
theorem C5_fallback_chain_amended :
    (∀ (obj : JVal) (p : String) (ps : List String),
       EdgeFn.firstFallbackHit obj (p :: ps) =
         if EdgeFn.fallbackAccepts (EdgeFn.getNestedValue obj p) then
           EdgeFn.getNestedValue obj p
         else EdgeFn.firstFallbackHit obj ps) ∧
    (∀ v : JVal, EdgeFn.fallbackAccepts v =
       (!(isUndefined v) && !(jsStrictEq v .vNull) && !(jsStrictEq v (.vStr "")))) ∧
    EdgeFn.resolveTemplateStr tplFB ctxA = "found" ∧
    EdgeFn.resolveTemplateObject (.vStr tplFB) ctxA = .vStr "found" ∧
    EdgeFn.getNestedValueWithFallback (ctxVal ctxB) "a.x || b.y || \"default\"" = .vUndefined ∧
    EdgeFn.resolveTemplateStr tplFB ctxB = tplFB ∧
    CLIExec.resolveTemplateStr tplFB ctxA = tplFB := by
  exact ⟨fun _ _ _ => rfl, fun _ => rfl, rfl, rfl, rfl, rfl, rfl⟩

/-- C6 counterexample: the CLI executor's `resolveTemplateObject` has no
pure-placeholder case — `\x7b\x7bobj\x7d\x7d` with `obj = \x7bk:1\x7d`
resolves to the JSON text, not to the object itself — so the claim is false
of that executor. -/
theorem C6_counterexample_cli_pure_template_stringifies :
    CLIExec.resolveTemplateObject (.vStr pureObjTpl) ctxObj = .vStr "\x7b\"k\":1\x7d" ∧
    CLIExec.resolveTemplateObject (.vStr pureObjTpl) ctxObj ≠ .vObj [("k", .vNum 1)] := by
  refine ⟨rfl, ?_⟩
  intro h
  rw [show CLIExec.resolveTemplateObject (.vStr pureObjTpl) ctxObj
        = .vStr "\x7b\"k\":1\x7d" from rfl] at h
  exact JVal.noConfusion h

/-- C6 (amended): in the edge-function executor an input-mapping string that
is exactly one placeholder resolves to the raw context value (objects and
arrays pass through untouched), while an embedded placeholder interpolates
with JSON serialization; the CLI executor JSON-stringifies even the pure
case. -/
theorem C6_pure_vs_partial_resolution_amended :
    (∀ (s inner : String) (ctx : Ctx),
       pureTemplate? s = some inner →
       EdgeFn.resolveTemplateObject (.vStr s) ctx =
         EdgeFn.getNestedValueWithFallback (ctxVal ctx) (jsTrim inner)) ∧
    EdgeFn.resolveTemplateObject (.vStr pureObjTpl) ctxObj = .vObj [("k", .vNum 1)] ∧
    EdgeFn.resolveTemplateObject (.vStr "prefix \x7b\x7bobj\x7d\x7d suffix") ctxObj =
      .vStr "prefix \x7b\"k\":1\x7d suffix" ∧
    CLIExec.resolveTemplateStr "prefix \x7b\x7bobj\x7d\x7d suffix" ctxObj =
      "prefix \x7b\"k\":1\x7d suffix" ∧
    CLIExec.resolveTemplateObject (.vStr pureObjTpl) ctxObj = .vStr "\x7b\"k\":1\x7d" := by
  refine ⟨?_, rfl, rfl, rfl, rfl⟩
  intro s inner ctx h
  simp [EdgeFn.resolveTemplateObject, h]

/-- C6 witness: the pure-resolution law applied at the concrete fixture. -/
theorem C6_pure_vs_partial_resolution_amended_witness :
    pureTemplate? pureObjTpl = some "obj" ∧
    EdgeFn.resolveTemplateObject (.vStr pureObjTpl) ctxObj =
      EdgeFn.getNestedValueWithFallback (ctxVal ctxObj) (jsTrim "obj") :=
  ⟨rfl, C6_pure_vs_partial_resolution_amended.1 pureObjTpl "obj" ctxObj rfl⟩

/-- C7: both executors strip every character outside the whitelist
(alphanumerics, underscore, whitespace, dot, `< > = ! & |`, parentheses,
quotes, plus, minus) from the normalized expression before dynamic
evaluation: the sanitizer only removes characters, its output is entirely
whitelisted, and the evaluation oracle is applied exactly to the sanitized
normalized string — never to the raw one. -/
theorem C7_expression_sanitized_before_eval :
    (∀ expr : String,
       (sanitizeExpr expr).data.all isWhitelisted = true ∧
       (sanitizeExpr expr).data.Sublist expr.data) ∧
    (∀ expr : String, (EdgeFn.evaluatedString expr).data.all isWhitelisted = true) ∧
    (∀ expr : String, (CLIExec.evaluatedString expr).data.all isWhitelisted = true) ∧
    (∀ (evalFn : String → Except String JVal) (expr : String),
       EdgeFn.evaluateExpression evalFn expr =
         match evalFn (sanitizeExpr (EdgeFn.normalizeExpr expr)) with
         | .ok v => .ok v
         | .error _ => .error ("Invalid expression: " ++ EdgeFn.normalizeExpr expr)) ∧
    (∀ (evalFn : String → Except String JVal) (expr : String),
       CLIExec.evaluateExpression evalFn expr =
         match evalFn (sanitizeExpr (CLIExec.normalizeExpr expr)) with
         | .ok v => .ok v
         | .error _ => .error ("Invalid expression: " ++ CLIExec.normalizeExpr expr)) := by
  have hall : ∀ expr : String, (sanitizeExpr expr).data.all isWhitelisted = true := by
    intro expr
    rw [List.all_eq_true]
    intro c hc
    exact (List.mem_filter.mp hc).2
  refine ⟨fun expr => ⟨hall expr, List.filter_sublist _⟩, fun expr => hall _, fun expr => hall _,
    fun _ _ => rfl, fun _ _ => rfl⟩

/-- C8 counterexample: in the CLI executor, a `condition_check` step whose
condition fails to evaluate returns `success:false` (the step fails) rather
than defaulting the condition to false, so the claim is false of that
executor. -/
theorem C8_counterexample_cli_eval_failure_fails_step :
    (CLIExec.executeConditionCheck badEval { condition := "x >" } []).success = false ∧
    CLIExec.executeConditionCheck badEval { condition := "x >" } [] =
      { success := false,
        error := some "Condition evaluation failed: Invalid expression: x >" } := by
  exact ⟨rfl, rfl⟩

/-- Branch-action results always succeed. -/
theorem handleBranchAction_success (b : Option BranchCfg) :
    (handleBranchAction b).success = true := by
  rcases b with _ | cfg
  · rfl
  · unfold handleBranchAction
    by_cases h1 : cfg.action == some "continue" <;>
      by_cases h2 : cfg.action == some "stop" <;>
        by_cases h3 : cfg.action == some "emit_event" <;>
          by_cases h4 : cfg.then_ == some "stop" <;>
            by_cases h5 : cfg.then_ == some "emit_event" <;>
              simp [h1, h2, h3, h4, h5]

/-- C8 (amended): in the edge-function executor an evaluation failure of a
`condition_check` step's condition defaults the condition to false, routing
to the `on_false` branch action, which always succeeds; in the CLI executor
the step fails instead (see the counterexample). -/
theorem C8_condition_eval_failure_defaults_false :
    (∀ (evalFn : String → Except String JVal) (cfg : EdgeFn.CondCheckConfig)
       (ctx : Ctx) (msg : String),
       evalFn (EdgeFn.evaluatedString (EdgeFn.resolveTemplateStr cfg.condition ctx)) =
         .error msg →
       EdgeFn.executeConditionCheck evalFn cfg ctx = handleBranchAction cfg.on_false) ∧
    (∀ b : Option BranchCfg, (handleBranchAction b).success = true) ∧
    EdgeFn.executeConditionCheck badEval
      { condition := "x >", on_false := some { action := some "stop", reason := some "nope" } }
      [] =
      { success := true, output := .vObj [], stop := true, stop_reason := some "nope" } := by
  refine ⟨?_, handleBranchAction_success, rfl⟩
  intro evalFn cfg ctx msg h
  simp [EdgeFn.executeConditionCheck, EdgeFn.evaluateExpression, h]

/-- C8 witness: the defaulting law applied at the concrete fixture. -/
theorem C8_condition_eval_failure_defaults_false_witness :
    badEval (EdgeFn.evaluatedString (EdgeFn.resolveTemplateStr "x >" [])) =
      .error "SyntaxError" ∧
    EdgeFn.executeConditionCheck badEval { condition := "x >" } [] =
      handleBranchAction (none : Option BranchCfg) :=
  ⟨rfl, C8_condition_eval_failure_defaults_false.1 badEval { condition := "x >" } [] _ rfl⟩

/-- The engine result's recorded state is the loop's final state, whether
or not an exception escaped. -/
theorem cli_executeWorkflow_state (exec : WStep → Ctx → ExecOutcome)
    (w : List WStep) (i : Ctx) :
    (CLIExec.executeWorkflow exec w i).state =
      CLIExec.runSteps exec (List.insertionSort stepLe w) { ctx := i } := by
  cases hth : (CLIExec.runSteps exec (List.insertionSort stepLe w) { ctx := i }).threw with
  | none => simp [CLIExec.executeWorkflow, hth]
  | some m => simp [CLIExec.executeWorkflow, hth]

/-- Edge-function analogue of `cli_executeWorkflow_state`. -/
theorem ef_executeWorkflow_state (exec : WStep → Ctx → ExecOutcome)
    (w : List WStep) (i : Ctx) :
    (EdgeFn.executeWorkflow exec w i).state =
      EdgeFn.runSteps exec (List.insertionSort stepLe w) { ctx := i } := by
  cases hth : (EdgeFn.runSteps exec (List.insertionSort stepLe w) { ctx := i }).threw with
  | none => simp [EdgeFn.executeWorkflow, hth]
  | some m => simp [EdgeFn.executeWorkflow, hth]

/-- C9: steps run in ascending `step_order` with no revisiting, in *both*
executors — the run's log rows carry the step orders of an initial segment
of the sorted definition (ascending, strictly so when the definition's
orders are distinct); a step whose guard evaluates false is logged
`skipped` with the context completely unchanged and its `executeStep` never
invoked; and a variable bindable only by never-executed steps is invisible
to every executed step and absent from the final context.  The P2 scenario
(steps 1-2-3, step 2's guard false) is checked concretely on each engine. -/
theorem C9_sequential_ordering_and_skips :
    (∀ (exec : WStep → Ctx → ExecOutcome) (wfSteps : List WStep) (init : Ctx),
       ∃ k, (CLIExec.executeWorkflow exec wfSteps init).state.logs.map LogRow.step_order =
         ((List.insertionSort stepLe wfSteps).map WStep.step_order).take k) ∧
    (∀ (exec : WStep → Ctx → ExecOutcome) (wfSteps : List WStep) (init : Ctx),
       (wfSteps.map WStep.step_order).Nodup →
       ((CLIExec.executeWorkflow exec wfSteps init).state.logs.map
         LogRow.step_order).Sorted (· < ·)) ∧
    (∀ (exec : WStep → Ctx → ExecOutcome) (s : WStep) (rest : List WStep) (st : RunState),
       st.shouldStop = false →
       s.run_conditions.length ≠ 0 →
       CLIExec.evaluateConditions s.run_conditions st.ctx = false →
       CLIExec.runSteps exec (s :: rest) st =
         CLIExec.runSteps exec rest
           { st with currentStepOrder := s.step_order,
                     logs := st.logs ++ [skipLog s] } ∧
       (skipLog s).status = "skipped") ∧
    (∀ (exec : WStep → Ctx → ExecOutcome) (wfSteps : List WStep) (init : Ctx) (v : String),
       ¬ v ∈ ctxKeys init →
       (∀ s, s ∈ wfSteps → v ∈ possibleKeys s →
         ¬ s.step_order ∈
           (CLIExec.executeWorkflow exec wfSteps init).state.execCalls.map Prod.fst) →
       (∀ c, c ∈ (CLIExec.executeWorkflow exec wfSteps init).state.execCalls →
         ¬ v ∈ ctxKeys c.2) ∧
       ¬ v ∈ ctxKeys (CLIExec.executeWorkflow exec wfSteps init).state.ctx) ∧
    ((CLIExec.executeWorkflow execOk [p2s1, p2s2, p2s3] p2ctx).state.logs.map
       (fun l => (l.step_order, l.status)) =
       [(1, "completed"), (2, "skipped"), (3, "completed")] ∧
     (CLIExec.executeWorkflow execOk [p2s1, p2s2, p2s3] p2ctx).state.execCalls.map
       Prod.fst = [1, 3] ∧
     (∀ c, c ∈ (CLIExec.executeWorkflow execOk [p2s1, p2s2, p2s3] p2ctx).state.execCalls →
       ¬ "v2" ∈ ctxKeys c.2) ∧
     ¬ "v2" ∈ ctxKeys (CLIExec.executeWorkflow execOk [p2s1, p2s2, p2s3] p2ctx).state.ctx) ∧
    (∀ (exec : WStep → Ctx → ExecOutcome) (wfSteps : List WStep) (init : Ctx),
       ∃ k, (EdgeFn.executeWorkflow exec wfSteps init).state.logs.map LogRow.step_order =
         ((List.insertionSort stepLe wfSteps).map WStep.step_order).take k) ∧
    (∀ (exec : WStep → Ctx → ExecOutcome) (wfSteps : List WStep) (init : Ctx),
       (wfSteps.map WStep.step_order).Nodup →
       ((EdgeFn.executeWorkflow exec wfSteps init).state.logs.map
         LogRow.step_order).Sorted (· < ·)) ∧
    (∀ (exec : WStep → Ctx → ExecOutcome) (s : WStep) (rest : List WStep) (st : RunState),
       st.shouldStop = false →
       s.run_conditions.length ≠ 0 →
       EdgeFn.evaluateConditions s.run_conditions st.ctx = false →
       EdgeFn.runSteps exec (s :: rest) st =
         EdgeFn.runSteps exec rest
           { st with currentStepOrder := s.step_order,
                     logs := st.logs ++ [skipLog s] } ∧
       (skipLog s).status = "skipped") ∧
    (∀ (exec : WStep → Ctx → ExecOutcome) (wfSteps : List WStep) (init : Ctx) (v : String),
       ¬ v ∈ ctxKeys init →
       (∀ s, s ∈ wfSteps → v ∈ possibleKeys s →
         ¬ s.step_order ∈
           (EdgeFn.executeWorkflow exec wfSteps init).state.execCalls.map Prod.fst) →
       (∀ c, c ∈ (EdgeFn.executeWorkflow exec wfSteps init).state.execCalls →
         ¬ v ∈ ctxKeys c.2) ∧
       ¬ v ∈ ctxKeys (EdgeFn.executeWorkflow exec wfSteps init).state.ctx) ∧
    ((EdgeFn.executeWorkflow execOk [p2s1, p2s2, p2s3] p2ctx).state.logs.map
       (fun l => (l.step_order, l.status)) =
       [(1, "completed"), (2, "skipped"), (3, "completed")] ∧
     (EdgeFn.executeWorkflow execOk [p2s1, p2s2, p2s3] p2ctx).state.execCalls.map
       Prod.fst = [1, 3] ∧
     (∀ c, c ∈ (EdgeFn.executeWorkflow execOk [p2s1, p2s2, p2s3] p2ctx).state.execCalls →
       ¬ "v2" ∈ ctxKeys c.2) ∧
     ¬ "v2" ∈ ctxKeys (EdgeFn.executeWorkflow execOk [p2s1, p2s2, p2s3] p2ctx).state.ctx) := by
  have hpref : ∀ (exec : WStep → Ctx → ExecOutcome) (wfSteps : List WStep) (init : Ctx),
      ∃ k, (CLIExec.executeWorkflow exec wfSteps init).state.logs.map LogRow.step_order =
        ((List.insertionSort stepLe wfSteps).map WStep.step_order).take k := by
    intro exec wfSteps init
    obtain ⟨k, hk⟩ := cli_runSteps_logs_take exec (List.insertionSort stepLe wfSteps)
      { ctx := init }
    refine ⟨k, ?_⟩
    rw [cli_executeWorkflow_state exec wfSteps init, hk]
    simp
  have hprefEF : ∀ (exec : WStep → Ctx → ExecOutcome) (wfSteps : List WStep) (init : Ctx),
      ∃ k, (EdgeFn.executeWorkflow exec wfSteps init).state.logs.map LogRow.step_order =
        ((List.insertionSort stepLe wfSteps).map WStep.step_order).take k := by
    intro exec wfSteps init
    obtain ⟨k, hk⟩ := ef_runSteps_logs_take exec (List.insertionSort stepLe wfSteps)
      { ctx := init }
    refine ⟨k, ?_⟩
    rw [ef_executeWorkflow_state exec wfSteps init, hk]
    simp
  have hsortedOrders : ∀ (wfSteps : List WStep), (wfSteps.map WStep.step_order).Nodup →
      (((List.insertionSort stepLe wfSteps).map WStep.step_order)).Sorted (· < ·) := by
    intro wfSteps hnd
    apply List.Sorted.lt_of_le
    · have hs := List.sorted_insertionSort stepLe wfSteps
      rw [List.Sorted, List.pairwise_map]
      exact hs
    · have hperm : ((List.insertionSort stepLe wfSteps).map WStep.step_order).Perm
          (wfSteps.map WStep.step_order) := (List.perm_insertionSort stepLe wfSteps).map _
      exact hperm.nodup_iff.mpr hnd
  refine ⟨hpref, ?_, ?_, ?_, ⟨rfl, rfl, by decide, by decide⟩,
    hprefEF, ?_, ?_, ?_, ⟨rfl, rfl, by decide, by decide⟩⟩
  · intro exec wfSteps init hnd
    obtain ⟨k, hk⟩ := hpref exec wfSteps init
    rw [hk]
    exact List.Pairwise.sublist (List.take_sublist k _) (hsortedOrders wfSteps hnd)
  · intro exec s rest st h1 h2 h3
    have hguard : (s.run_conditions.length != 0 &&
        !(CLIExec.evaluateConditions s.run_conditions st.ctx)) = true := by
      simp [h2, h3]
    rw [CLIExec.runSteps, if_neg (by simp [h1]), if_pos hguard]
    exact ⟨rfl, rfl⟩
  · intro exec wfSteps init v hv hnone
    rw [cli_executeWorkflow_state exec wfSteps init] at hnone ⊢
    constructor
    · intro c hc hvc
      obtain ⟨s, hs1, hs2, hs3⟩ := cli_runSteps_key_origin exec v
        (List.insertionSort stepLe wfSteps) { ctx := init } hv
        (Or.inr ⟨c, hc, by simp, hvc⟩)
      exact hnone s ((List.perm_insertionSort stepLe wfSteps).subset hs1) hs2 hs3
    · intro hvc
      obtain ⟨s, hs1, hs2, hs3⟩ := cli_runSteps_key_origin exec v
        (List.insertionSort stepLe wfSteps) { ctx := init } hv (Or.inl hvc)
      exact hnone s ((List.perm_insertionSort stepLe wfSteps).subset hs1) hs2 hs3
  · intro exec wfSteps init hnd
    obtain ⟨k, hk⟩ := hprefEF exec wfSteps init
    rw [hk]
    exact List.Pairwise.sublist (List.take_sublist k _) (hsortedOrders wfSteps hnd)
  · intro exec s rest st h1 h2 h3
    have hguard : (s.run_conditions.length != 0 &&
        !(EdgeFn.evaluateConditions s.run_conditions st.ctx)) = true := by
      simp [h2, h3]
    rw [EdgeFn.runSteps, if_neg (by simp [h1]), if_pos hguard]
    exact ⟨rfl, rfl⟩
  · intro exec wfSteps init v hv hnone
    rw [ef_executeWorkflow_state exec wfSteps init] at hnone ⊢
    constructor
    · intro c hc hvc
      obtain ⟨s, hs1, hs2, hs3⟩ := ef_runSteps_key_origin exec v
        (List.insertionSort stepLe wfSteps) { ctx := init } hv
        (Or.inr ⟨c, hc, by simp, hvc⟩)
      exact hnone s ((List.perm_insertionSort stepLe wfSteps).subset hs1) hs2 hs3
    · intro hvc
      obtain ⟨s, hs1, hs2, hs3⟩ := ef_runSteps_key_origin exec v
        (List.insertionSort stepLe wfSteps) { ctx := init } hv (Or.inl hvc)
      exact hnone s ((List.perm_insertionSort stepLe wfSteps).subset hs1) hs2 hs3

/-- C9 witness: the ordering, skip, and non-observation laws applied at the
concrete P2 scenario, on both engines. -/
theorem C9_sequential_ordering_and_skips_witness :
    (([p2s1, p2s2, p2s3].map WStep.step_order).Nodup ∧
     ((CLIExec.executeWorkflow execOk [p2s1, p2s2, p2s3] p2ctx).state.logs.map
       LogRow.step_order).Sorted (· < ·) ∧
     ((EdgeFn.executeWorkflow execOk [p2s1, p2s2, p2s3] p2ctx).state.logs.map
       LogRow.step_order).Sorted (· < ·)) ∧
    ((⟨p2ctx, [], false, none, 0, none, [], [(1, p2ctx)]⟩ : RunState).shouldStop = false ∧
     p2s2.run_conditions.length ≠ 0 ∧
     CLIExec.evaluateConditions p2s2.run_conditions p2ctx = false ∧
     EdgeFn.evaluateConditions p2s2.run_conditions p2ctx = false ∧
     CLIExec.runSteps execOk [p2s2, p2s3] ⟨p2ctx, [], false, none, 0, none, [], [(1, p2ctx)]⟩ =
       CLIExec.runSteps execOk [p2s3]
         { (⟨p2ctx, [], false, none, 0, none, [], [(1, p2ctx)]⟩ : RunState) with
           currentStepOrder := p2s2.step_order,
           logs := [skipLog p2s2] } ∧
     EdgeFn.runSteps execOk [p2s2, p2s3] ⟨p2ctx, [], false, none, 0, none, [], [(1, p2ctx)]⟩ =
       EdgeFn.runSteps execOk [p2s3]
         { (⟨p2ctx, [], false, none, 0, none, [], [(1, p2ctx)]⟩ : RunState) with
           currentStepOrder := p2s2.step_order,
           logs := [skipLog p2s2] }) ∧
    (¬ "v2" ∈ ctxKeys p2ctx ∧
     (∀ c, c ∈ (CLIExec.executeWorkflow execOk [p2s1, p2s2, p2s3] p2ctx).state.execCalls →
       ¬ "v2" ∈ ctxKeys c.2) ∧
     ¬ "v2" ∈ ctxKeys (CLIExec.executeWorkflow execOk [p2s1, p2s2, p2s3] p2ctx).state.ctx ∧
     (∀ c, c ∈ (EdgeFn.executeWorkflow execOk [p2s1, p2s2, p2s3] p2ctx).state.execCalls →
       ¬ "v2" ∈ ctxKeys c.2) ∧
     ¬ "v2" ∈ ctxKeys (EdgeFn.executeWorkflow execOk [p2s1, p2s2, p2s3] p2ctx).state.ctx) := by
  refine ⟨⟨by decide, ?_, ?_⟩,
    ⟨rfl, by decide, by decide, by decide, ?_, ?_⟩, ⟨by decide, ?_, ?_, ?_, ?_⟩⟩
  · exact C9_sequential_ordering_and_skips.2.1 execOk [p2s1, p2s2, p2s3] p2ctx (by decide)
  · exact C9_sequential_ordering_and_skips.2.2.2.2.2.2.1 execOk [p2s1, p2s2, p2s3] p2ctx
      (by decide)
  · exact (C9_sequential_ordering_and_skips.2.2.1 execOk p2s2 [p2s3]
      ⟨p2ctx, [], false, none, 0, none, [], [(1, p2ctx)]⟩ rfl (by decide) (by decide)).1
  · exact (C9_sequential_ordering_and_skips.2.2.2.2.2.2.2.1 execOk p2s2 [p2s3]
      ⟨p2ctx, [], false, none, 0, none, [], [(1, p2ctx)]⟩ rfl (by decide) (by decide)).1
  · exact (C9_sequential_ordering_and_skips.2.2.2.1 execOk [p2s1, p2s2, p2s3] p2ctx "v2"
      (by decide) (by decide)).1
  · exact (C9_sequential_ordering_and_skips.2.2.2.1 execOk [p2s1, p2s2, p2s3] p2ctx "v2"
      (by decide) (by decide)).2
  · exact (C9_sequential_ordering_and_skips.2.2.2.2.2.2.2.2.1 execOk [p2s1, p2s2, p2s3]
      p2ctx "v2" (by decide) (by decide)).1
  · exact (C9_sequential_ordering_and_skips.2.2.2.2.2.2.2.2.1 execOk [p2s1, p2s2, p2s3]
      p2ctx "v2" (by decide) (by decide)).2

/-- C10: in `evaluateConditions`, `is_empty` classifies every JS-falsy
resolved field value as empty (including the number 0 and `false`), and
`is_not_empty` is its boolean negation; concretely, a field resolving to 0
makes `is_empty` true, and an `is_not_empty` guard on such a field skips
the step (raw values reach the operator in the edge-function executor,
whose guard evaluation looks fields up without stringifying). -/
theorem C10_is_empty_classifies_falsy :
    (∀ (v t : JVal), EdgeFn.evalCondOp "is_empty" v t = !(truthy v)) ∧
    (∀ (v t : JVal), EdgeFn.evalCondOp "is_not_empty" v t = truthy v) ∧
    (∀ (v t : JVal),
       EdgeFn.evalCondOp "is_not_empty" v t = !(EdgeFn.evalCondOp "is_empty" v t)) ∧
    (∀ (v t : JVal), CLIExec.evalCondOp "is_empty" v t = !(truthy v)) ∧
    (∀ (v t : JVal),
       CLIExec.evalCondOp "is_not_empty" v t = !(CLIExec.evalCondOp "is_empty" v t)) ∧
    EdgeFn.evaluateConditions [⟨fieldX, "is_empty", .vNull⟩] ctx0 = true ∧
    EdgeFn.evaluateConditions [⟨fieldX, "is_empty", .vNull⟩] [("x", .vBool false)] = true ∧
    EdgeFn.evaluateConditions [⟨fieldX, "is_not_empty", .vNull⟩] ctx0 = false ∧
    (∀ exec : WStep → Ctx → ExecOutcome,
       (EdgeFn.executeWorkflow exec [guardStepNE] ctx0).state.logs.map LogRow.status =
         ["skipped"] ∧
       (EdgeFn.executeWorkflow exec [guardStepNE] ctx0).state.execCalls = []) := by
  have hemp : ∀ (v t : JVal), EdgeFn.evalCondOp "is_empty" v t = !(truthy v) := by
    intro v t
    cases v <;> simp [EdgeFn.evalCondOp, truthy, jsStrictEq]
  have hnemp : ∀ (v t : JVal), EdgeFn.evalCondOp "is_not_empty" v t = truthy v := by
    intro v t
    cases v <;> simp [EdgeFn.evalCondOp, truthy, jsStrictEq]
  refine ⟨hemp, hnemp, ?_, ?_, ?_, rfl, rfl, rfl, fun exec => ⟨rfl, rfl⟩⟩
  · intro v t
    rw [hemp, hnemp, Bool.not_not]
  · intro v t
    cases v <;> simp [CLIExec.evalCondOp, truthy, jsStrictEq]
  · intro v t
    cases v <;> simp [CLIExec.evalCondOp, truthy, jsStrictEq]

end HeadlessCRM
